import Mathlib

/-!
# golangeditor: symbol index, import resolver, toolchain locator, run orchestration

A shallow embedding of `src/handlers.go`.  The handlers talk to the operating
system (directory walks, `os.Stat`, the Go parser, sub-processes); every such
service is an explicit field of the structure `OS`, so that a statement
quantified over `OS` is a statement about every filesystem state.

Conventions
* Go `string` is `String`; byte-wise library functions are defined on `String.data`.
* `path/filepath` is modelled by its Unix implementation (separator `/`, no volume names).
* A Go `map[string]string` is an association list in iteration order.
* Handlers are modelled from the point where the request has been decoded.
* `go updateIndex(...)` runs apart from the handler that starts it; a handler records
  that it started one.
-/

namespace GoEditor

/-! ## `strings` -/

namespace strings

/-- Go `strings.HasPrefix`. -/
def HasPrefix (s pre : String) : Bool := pre.data.isPrefixOf s.data

/-- Go `strings.HasSuffix`. -/
def HasSuffix (s suf : String) : Bool := suf.data.isSuffixOf s.data

end strings

/-! ## `path/filepath` (Unix) -/

namespace filepath

/-- The path separator. -/
def Separator : Char := '/'

/-- The elements of a path: the maximal runs between separators (possibly empty). -/
def splitSep : List Char → List (List Char)
  | [] => [[]]
  | c :: cs =>
    if c = Separator then [] :: splitSep cs
    else
      match splitSep cs with
      | [] => [[c]]
      | h :: t => (c :: h) :: t

/-- One element of `Clean`'s scan.  `out` holds the elements written so far, the last
one first.  Empty and `.` elements are dropped; `..` removes the last real element,
is dropped at the root of a rooted path, and is kept otherwise. -/
def cleanStep (rooted : Bool) (out : List (List Char)) (e : List Char) : List (List Char) :=
  if e = [] ∨ e = ['.'] then out
  else if e = ['.', '.'] then
    match out with
    | [] => if rooted then [] else [e]
    | top :: rest => if top = ['.', '.'] then e :: out else rest
  else e :: out

/-- Go `filepath.Clean` on Unix: the shortest path name equivalent to `path` by
purely lexical processing. -/
def Clean (path : String) : String :=
  if path.data = [] then "."
  else
    let rooted : Bool := path.data.head? = some Separator
    let out := (splitSep path.data).foldl (cleanStep rooted) []
    let body := List.intercalate [Separator] out.reverse
    let res := if rooted then Separator :: body else body
    if res = [] then "." else String.mk res

/-- Go `filepath.Join` on Unix: leading empty elements are ignored, the rest is
joined with separators and cleaned; all elements empty gives the empty string. -/
def Join (elem : List String) : String :=
  match elem.dropWhile (fun e => e = "") with
  | [] => ""
  | es => Clean (String.mk (List.intercalate [Separator] (es.map String.data)))

/-- Go `filepath.Dir` on Unix: everything up to the last separator, cleaned. -/
def Dir (path : String) : String :=
  Clean (String.mk (path.data.reverse.dropWhile (fun c => c ≠ Separator)).reverse)

end filepath

/-! ## `go/token`, `go/ast` -/

namespace token

/-- Go `token.Pos`: a compact position inside a file set; `NoPos` is `0`. -/
abbrev Pos := Nat

/-- Go `token.NoPos`. -/
def NoPos : Pos := 0

/-- Go `token.Position`. -/
structure Position where
  Filename : String
  Offset : Int
  Line : Int
  Column : Int
deriving DecidableEq, Repr

/-- The keywords a `GenDecl` can start with. -/
inductive Token where
  | IMPORT | CONST | TYPE | VAR
deriving DecidableEq, Repr

end token

namespace ast

/-- Go `ast.Ident`. -/
structure Ident where
  NamePos : token.Pos
  Name : String
deriving DecidableEq, Repr

/-- Go `(*ast.Ident).Pos`. -/
def Ident.Pos (x : Ident) : token.Pos := x.NamePos

/-- Go `ast.FieldList`; `List` keeps the position of each field. -/
structure FieldList where
  Opening : token.Pos
  List : List token.Pos
deriving DecidableEq, Repr

/-- Go `(*ast.FieldList).Pos`. -/
def FieldList.Pos (f : FieldList) : token.Pos :=
  if f.Opening ≠ token.NoPos then f.Opening
  else
    match f.List with
    | p :: _ => p
    | [] => token.NoPos

/-- Go `ast.FuncType`: `Func` is the position of the `func` keyword. -/
structure FuncType where
  Func : token.Pos
  Params : Option FieldList
deriving DecidableEq, Repr

/-- Go `(*ast.FuncType).Pos`. -/
def FuncType.Pos (x : FuncType) : token.Pos :=
  match x.Params with
  | none => x.Func
  | some ps => if x.Func ≠ token.NoPos then x.Func else ps.Pos

/-- Go `ast.Spec`: `ImportSpec`, `ValueSpec` or `TypeSpec`. -/
inductive Spec where
  | ImportSpec (Path : String)
  | ValueSpec (Names : List Ident)
  | TypeSpec (Name : Ident)
deriving DecidableEq, Repr

/-- Go `(*ast.TypeSpec).Pos`: the position of the type name. -/
def TypeSpec.Pos (Name : Ident) : token.Pos := Name.Pos

/-- Go `ast.GenDecl`: `TokPos` is the position of the keyword `Tok`. -/
structure GenDecl where
  TokPos : token.Pos
  Tok : token.Token
  Specs : List Spec
deriving DecidableEq, Repr

/-- Statements of a function body, as far as declarations can hide in them. -/
inductive Stmt where
  | DeclStmt (Decl : GenDecl)
  | BlockStmt (List : List Stmt)
  | OtherStmt

/-- Go `ast.FuncDecl`; `Typ` is its field `Type`. -/
structure FuncDecl where
  Recv : Option FieldList
  Name : Ident
  Typ : FuncType
  Body : Option (List Stmt)

/-- Go `(*ast.FuncDecl).Pos`. -/
def FuncDecl.Pos (d : FuncDecl) : token.Pos := d.Typ.Pos

/-- Go `ast.Decl`. -/
inductive Decl where
  | BadDecl (From To : token.Pos)
  | GenDecl (d : GenDecl)
  | FuncDecl (d : FuncDecl)

/-- Go `ast.File`. -/
structure File where
  Name : Ident
  Decls : List Decl

end ast

/-! ## The operating system -/

/-- Go `fs.DirEntry`, as far as the handlers look at it. -/
structure DirEntry where
  Name : String
  IsDir : Bool
deriving DecidableEq, Repr

/-- A directory tree as `filepath.WalkDir` sees it.  `file` is any entry that is not a
directory; `readErr` says that `os.ReadDir` reported an error for the directory
(`children` are then the entries it returned all the same). -/
inductive FsNode where
  | file (name : String)
  | dir (name : String) (readErr : Bool) (children : List FsNode)

/-- The directory entry of a node. -/
def FsNode.entry : FsNode → DirEntry
  | .file n => ⟨n, false⟩
  | .dir n _ _ => ⟨n, true⟩

/-- Go `os.FileInfo`, as far as the handlers look at it. -/
structure FileInfo where
  IsDir : Bool
deriving DecidableEq, Repr

/-- The services of the operating system and of the Go library the handlers use.
Each field is what a call returns in the filesystem state at hand. -/
structure OS where
  /-- Go `runtime.GOOS`. -/
  GOOS : String
  /-- The tree found at a path (`os.Lstat` and `os.ReadDir` below it); `none` when `os.Lstat` fails. -/
  Lstat : String → Option FsNode
  /-- Go `parser.ParseFile(fset, path, nil, parser.ParseComments)`; `none` when `err != nil`.
  A file's syntax tree does not depend on which other files the file set holds. -/
  ParseFile : String → Option ast.File
  /-- Go `fset.Position` for the positions of the parsed files. -/
  Position : token.Pos → token.Position
  /-- Go `os.Stat`; `none` when `err != nil`. -/
  Stat : String → Option FileInfo
  /-- Go `os.Getwd`; `none` when `err != nil`. -/
  Getwd : Option String
  /-- Go `os.ReadDir`: the entries returned (the handlers ignore its error). -/
  ReadDir : String → List DirEntry
  /-- Go `exec.LookPath`; `none` when `err != nil`. -/
  LookPath : String → Option String
  /-- Go `os.Environ`. -/
  Environ : List String
  /-- The GBK decoder `decodeOutput` runs on Windows; `none` when decoding fails. -/
  DecodeGBK : String → Option String

/-! ## `filepath.WalkDir` -/

/-- The errors a `fs.WalkDirFunc` can return. -/
inductive WalkErr where
  | SkipDir
  | SkipAll
  | other
deriving DecidableEq, Repr

/-- Go `fs.WalkDirFunc`, threading the state `σ` the closure captures; the third
argument says whether `err != nil`. -/
abbrev WalkDirFunc (σ : Type) := String → Option DirEntry → Bool → σ → Option WalkErr × σ

mutual
/-- Go `filepath.walkDir`. -/
def walkDir {σ : Type} (fn : WalkDirFunc σ) (path : String) : FsNode → σ → Option WalkErr × σ
  | .file n, s => fn path (some ⟨n, false⟩) false s
  | .dir n readErr children, s =>
    match fn path (some ⟨n, true⟩) false s with
    | (some .SkipDir, s1) => (none, s1)
    | (some e, s1) => (some e, s1)
    | (none, s1) =>
      match (if readErr then fn path (some ⟨n, true⟩) true s1 else (none, s1)) with
      | (some .SkipDir, s2) => (none, s2)
      | (some e, s2) => (some e, s2)
      | (none, s2) => walkDirEntries fn path children s2
/-- The loop over the entries of a directory in `filepath.walkDir`. -/
def walkDirEntries {σ : Type} (fn : WalkDirFunc σ) (path : String) : List FsNode → σ → Option WalkErr × σ
  | [], s => (none, s)
  | d1 :: rest, s =>
    match walkDir fn (filepath.Join [path, d1.entry.Name]) d1 s with
    | (some .SkipDir, s1) => (none, s1)
    | (some e, s1) => (some e, s1)
    | (none, s1) => walkDirEntries fn path rest s1
end

/-- Go `filepath.WalkDir`; the returned error is dropped, as `updateIndex` drops it. -/
def WalkDir {σ : Type} (root : String) (tree : Option FsNode) (fn : WalkDirFunc σ) (s : σ) : σ :=
  match tree with
  | none => (fn root none true s).2
  | some t => (walkDir fn root t s).2

/-! ## The symbol index (`updateIndex`, `handleSymbols`) -/

/-- Go `Symbol`. -/
structure Symbol where
  Name : String
  Kind : String
  Path : String
  Line : Int
  Character : Int
deriving DecidableEq, Repr

/-- The package-level variables of `handlers.go`. -/
structure State where
  currentWorkDir : String
  symbolCache : List Symbol

/-- The loop over `valSpec.Names` in `updateIndex`. -/
def indexNames (Position : token.Pos → token.Position) (path : String) (Tok : token.Token)
    (symbols : List Symbol) (Names : List ast.Ident) : List Symbol :=
  Names.foldl (fun symbols name =>
    let pos := Position name.Pos
    let kind := if Tok = token.Token.CONST then "Constant" else "Variable"
    symbols ++ [{ Name := name.Name, Kind := kind, Path := path, Line := pos.Line, Character := pos.Column }])
    symbols

/-- The loop over `gen.Specs` in `updateIndex`. -/
def indexSpecs (Position : token.Pos → token.Position) (path : String) (gen : ast.GenDecl)
    (symbols : List Symbol) : List Symbol :=
  gen.Specs.foldl (fun symbols spec =>
    match spec with
    | .TypeSpec Name =>
      let pos := Position (ast.TypeSpec.Pos Name)
      symbols ++ [{ Name := Name.Name, Kind := "Struct", Path := path, Line := pos.Line, Character := pos.Column }]
    | .ValueSpec Names => indexNames Position path gen.Tok symbols Names
    | .ImportSpec _ => symbols)
    symbols

/-- The loop over `f.Decls` in `updateIndex`. -/
def indexDecls (Position : token.Pos → token.Position) (path : String) (f : ast.File)
    (symbols : List Symbol) : List Symbol :=
  f.Decls.foldl (fun symbols decl =>
    match decl with
    | .FuncDecl fn =>
      let pos := Position fn.Pos
      let kind := if fn.Recv.isSome then "Method" else "Function"
      symbols ++ [{ Name := fn.Name.Name, Kind := kind, Path := path, Line := pos.Line, Character := pos.Column }]
    | .GenDecl gen => indexSpecs Position path gen symbols
    | .BadDecl _ _ => symbols)
    symbols

/-- The directory names `updateIndex` prunes. -/
def skipsDir (name : String) : Bool :=
  strings.HasPrefix name "." || name = "node_modules" || name = "vendor"

/-- The closure `updateIndex` passes to `filepath.WalkDir`; the state is `symbols`.
`filepath.WalkDir` passes no entry (`d == nil`) only together with an error. -/
def updateIndexFn (os : OS) : WalkDirFunc (List Symbol) := fun path d err symbols =>
  if err then (none, symbols)
  else
    match d with
    | none => (none, symbols)
    | some d =>
      if d.IsDir then
        if skipsDir d.Name then (some .SkipDir, symbols) else (none, symbols)
      else if !strings.HasSuffix path ".go" then (none, symbols)
      else
        match os.ParseFile path with
        | none => (none, symbols)
        | some f => (none, indexDecls os.Position path f symbols)

/-- The sequence `updateIndex` builds for the tree found at `root`. -/
def indexTree (os : OS) (root : String) (tree : Option FsNode) : List Symbol :=
  WalkDir root tree (updateIndexFn os) []

/-- Go `updateIndex`. -/
def updateIndex (os : OS) (root : String) (st : State) : State :=
  { st with symbolCache := indexTree os root (os.Lstat root) }

/-- Go `handleSymbols`: the body of the response. -/
def handleSymbols (st : State) : List Symbol := st.symbolCache

/-! ## The import resolver (`handleResolveFile`, `checkExtensions`) -/

/-- The list `extensions` of `checkExtensions`. -/
def extensions : List String :=
  ["", ".go", ".ts", ".tsx", ".js", ".jsx", ".json", "/index.go", "/index.ts", "/index.tsx", "/index.js"]

/-- The loop of `checkExtensions` over the extensions still to try. -/
def checkExtensionsFrom (os : OS) (p : String) : List String → String
  | [] => ""
  | ext :: rest =>
    let testPath := p ++ ext
    match os.Stat testPath with
    | some info => if !info.IsDir then testPath else checkExtensionsFrom os p rest
    | none => checkExtensionsFrom os p rest

/-- Go `checkExtensions`. -/
def checkExtensions (os : OS) (p : String) : String :=
  checkExtensionsFrom os p extensions

/-- What `handleResolveFile` answers. -/
inductive ResolveResponse where
  | badRequest
  | ok (path : String)
  | notFound
deriving DecidableEq, Repr

/-- The variable `resolved` of `handleResolveFile` after the three-way branch (lines 331 to 354). -/
def resolved (os : OS) (st : State) (basePath importPath : String) : String :=
  let dir := filepath.Dir basePath
  if strings.HasPrefix importPath "." then
    checkExtensions os (filepath.Join [dir, importPath])
  else if strings.HasPrefix importPath "@/" then
    if st.currentWorkDir ≠ "" then
      let resolved := checkExtensions os (filepath.Join [st.currentWorkDir, String.mk (importPath.data.drop 2)])
      if resolved = "" then
        checkExtensions os (filepath.Join [st.currentWorkDir, "src", String.mk (importPath.data.drop 2)])
      else resolved
    else ""
  else
    let resolved := checkExtensions os (filepath.Join [dir, importPath])
    if resolved = "" ∧ st.currentWorkDir ≠ "" then
      checkExtensions os (filepath.Join [st.currentWorkDir, importPath])
    else resolved

/-- Go `handleResolveFile`, from the query parameters `base` and `import` on. -/
def handleResolveFile (os : OS) (st : State) (basePath importPath : String) : ResolveResponse :=
  if basePath = "" ∨ importPath = "" then .badRequest
  else
    let resolved := resolved os st basePath importPath
    if resolved ≠ "" then .ok resolved else .notFound

/-! ## The toolchain locator (`getGoBin`, `findGoExecutable`, `checkGoPath`) -/

/-- Go `checkGoPath`. -/
def checkGoPath (os : OS) (path : String) : String × Bool :=
  let path := if os.GOOS = "windows" then path ++ ".exe" else path
  match os.Stat path with
  | some info => if !info.IsDir then (path, true) else ("", false)
  | none => ("", false)

/-- The loop of `findGoExecutable` over the entries of the working directory;
`none` when the loop ends without returning. -/
def findGoInEntries (os : OS) (cwd : String) : List DirEntry → Option String
  | [] => none
  | entry :: rest =>
    if entry.IsDir then
      match checkGoPath os (filepath.Join [cwd, entry.Name, "go", "bin", "go"]) with
      | (path, true) => some path
      | (_, false) =>
        match checkGoPath os (filepath.Join [cwd, entry.Name, "bin", "go"]) with
        | (path, true) => some path
        | (_, false) => findGoInEntries os cwd rest
    else findGoInEntries os cwd rest

/-- Go `findGoExecutable`. -/
def findGoExecutable (os : OS) : String :=
  match os.Getwd with
  | none => "go"
  | some cwd =>
    match checkGoPath os (filepath.Join [cwd, "go", "bin", "go"]) with
    | (path, true) => path
    | (_, false) =>
      match findGoInEntries os cwd (os.ReadDir cwd) with
      | some path => path
      | none =>
        match os.LookPath "go" with
        | some path => path
        | none => "go"

/-- Go `getGoBin`. -/
def getGoBin (os : OS) (env : List (String × String)) : String :=
  match env.lookup "GOROOT" with
  | some goroot => if goroot ≠ "" then filepath.Join [goroot, "bin", "go"] else findGoExecutable os
  | none => findGoExecutable os

/-! ## Running code (`handleRun`, `handleCmd`, `decodeOutput`) -/

/-- Go `RunRequest`. -/
structure RunRequest where
  Code : String
  Path : String
  Env : List (String × String)

/-- Go `CmdRequest`. -/
structure CmdRequest where
  Command : String
  Env : List (String × String)

/-- Go `RunResponse`. -/
structure RunResponse where
  Output : String
  Error : String
deriving DecidableEq, Repr

/-- Go `exec.Cmd`, as far as the handlers fill it in.  An empty `Dir` makes the
subprocess run in the calling process's current directory. -/
structure Cmd where
  Args : List String
  Dir : String
  Env : List String
deriving DecidableEq, Repr

/-- Go `exec.Command`. -/
def Command (name : String) (arg : List String) : Cmd :=
  { Args := name :: arg, Dir := "", Env := [] }

/-- The regular files on disk, with their content. -/
abbrev Disk := String → Option String

/-- Writing a file. -/
def Disk.write (d : Disk) (path data : String) : Disk :=
  fun p => if p = path then some data else d p

/-- Removing a file. -/
def Disk.remove (d : Disk) (path : String) : Disk :=
  fun p => if p = path then none else d p

/-- What running a subprocess gives: the combined output, the error of
`cmd.CombinedOutput` if any, and the disk the subprocess leaves. -/
structure ExecResult where
  output : String
  err : Option String
  disk : Disk

/-- Go `os.Remove` of a regular file; `opened` are the files the process holds open.
The file is removed, except on Windows when the process still holds it open: a file
opened by `os.CreateTemp` does not share deletion there, so the call fails and the file
stays (`handleRun` drops the error of `os.Remove`). -/
def Remove (os : OS) (opened : List String) (disk : Disk) (name : String) : Disk :=
  if os.GOOS = "windows" ∧ name ∈ opened then disk else disk.remove name

/-- The outcomes of the effectful calls of one `handleRun`.  A call that fails leaves the
disk as it was. -/
structure Effects where
  /-- The error of `os.WriteFile(req.Path, ...)`, if it fails. -/
  WriteFile : Option String
  /-- The name `os.CreateTemp("", "main_*.go")` gives the scratch file, or its error. -/
  CreateTemp : Except String String
  /-- The error of `tmpFile.Write`, if it fails. -/
  TmpWrite : Option String
  /-- Go `cmd.CombinedOutput`. -/
  CombinedOutput : Cmd → Disk → ExecResult

/-- Go `decodeOutput`. -/
def decodeOutput (os : OS) (output : String) : String :=
  if os.GOOS ≠ "windows" then output
  else
    match os.DecodeGBK output with
    | none => output
    | some decoded => decoded

/-- The loop `for k, v := range req.Env` of `handleRun` and `handleCmd`, appending to `cmd.Env`. -/
def applyEnv (cmdEnv : List String) (env : List (String × String)) : List String :=
  env.foldl (fun cmdEnv kv => if kv.2 ≠ "" then cmdEnv ++ [kv.1 ++ "=" ++ kv.2] else cmdEnv) cmdEnv

/-- What one `handleRun` leaves behind. -/
structure RunOutcome where
  response : RunResponse
  /-- The command handed to `cmd.CombinedOutput`, if the handler got that far. -/
  launched : Option Cmd
  /-- Whether `go updateIndex(currentWorkDir)` was started. -/
  reindex : Bool
  disk : Disk

/-- The part of `handleRun` from `exec.Command` on (lines 525 to 566), before the
deferred `cleanup` runs. -/
def handleRunExec (os : OS) (fx : Effects) (st : State) (disk : Disk) (req : RunRequest)
    (goBin runFile : String) : RunOutcome :=
  let cmd := Command goBin ["run", runFile]
  let reindex : Bool := req.Path ≠ "" ∧ strings.HasSuffix req.Path ".go" ∧ st.currentWorkDir ≠ ""
  let cmd :=
    if req.Path ≠ "" then
      let cmd := { cmd with Dir := filepath.Dir req.Path }
      if st.currentWorkDir ≠ "" ∧ strings.HasPrefix req.Path st.currentWorkDir then
        { cmd with Dir := st.currentWorkDir }
      else cmd
    else cmd
  let cmd := { cmd with Env := applyEnv os.Environ req.Env }
  let r := fx.CombinedOutput cmd disk
  let response : RunResponse := { Output := decodeOutput os r.output, Error := "" }
  let response :=
    match r.err with
    | some e =>
      let response := { response with Error := e }
      if r.output.data.length = 0 then
        { response with Error := response.Error ++ "\n(Failed to execute '" ++ goBin ++
            "'. Check if Go is installed or GOROOT is configured correctly)" }
      else response
    | none => response
  { response := response, launched := some cmd, reindex := reindex, disk := r.disk }

/-- Go `handleRun`, from the decoded request on.  `opened` follows `tmpFile`: open from
`os.CreateTemp` until `tmpFile.Close()`, which the path of a failed `tmpFile.Write`
does not reach.  The deferred `cleanup` runs last. -/
def handleRun (os : OS) (fx : Effects) (st : State) (disk : Disk) (req : RunRequest) : RunOutcome :=
  let goBin := getGoBin os req.Env
  if req.Path ≠ "" then
    match fx.WriteFile with
    | some e =>
      { response := { Output := "", Error := "Failed to save file before running: " ++ e },
        launched := none, reindex := false, disk := disk }
    | none =>
      let disk := disk.write req.Path req.Code
      let runFile := req.Path
      handleRunExec os fx st disk req goBin runFile
  else
    match fx.CreateTemp with
    | .error e =>
      { response := { Output := "", Error := "Failed to create temp file: " ++ e },
        launched := none, reindex := false, disk := disk }
    | .ok name =>
      let disk := disk.write name ""
      let opened : List String := [name]
      let runFile := name
      match fx.TmpWrite with
      | some e =>
        { response := { Output := "", Error := "Failed to write code: " ++ e },
          launched := none, reindex := false, disk := Remove os opened disk runFile }
      | none =>
        let disk := disk.write runFile req.Code
        let opened : List String := opened.erase name
        let out := handleRunExec os fx st disk req goBin runFile
        { out with disk := Remove os opened out.disk runFile }

namespace unicode

/-- Go `unicode.IsSpace`. -/
def IsSpace (c : Char) : Bool :=
  let n := c.toNat
  (9 ≤ n ∧ n ≤ 13) ∨ n = 32 ∨ n = 133 ∨ n = 160 ∨ n = 5760 ∨ (8192 ≤ n ∧ n ≤ 8202) ∨
    n = 8232 ∨ n = 8233 ∨ n = 8239 ∨ n = 8287 ∨ n = 12288

end unicode

/-- The scan of `strings.Fields`: `cur` is the field being read, last character first. -/
def fieldsFrom (cur : List Char) : List Char → List String
  | [] => if cur = [] then [] else [String.mk cur.reverse]
  | c :: cs =>
    if unicode.IsSpace c then
      if cur = [] then fieldsFrom [] cs else String.mk cur.reverse :: fieldsFrom [] cs
    else fieldsFrom (c :: cur) cs

namespace strings

/-- Go `strings.Fields`. -/
def Fields (s : String) : List String := fieldsFrom [] s.data

end strings

/-- Go `handleCmd`, from the decoded request on; `none` when it returns without answering. -/
def handleCmd (os : OS) (fx : Effects) (disk : Disk) (req : CmdRequest) : Option RunOutcome :=
  match strings.Fields req.Command with
  | [] => none
  | name :: cmdArgs =>
    let name := if name = "go" then getGoBin os req.Env else name
    let wrap : Bool := os.GOOS = "windows" ∧ name ≠ "go" ∧ ¬ (Char.ofNat 92 ∈ name.data)
    let cmdArgs := if wrap then ["/C", req.Command] else cmdArgs
    let name := if wrap then "cmd" else name
    let cmd := Command name cmdArgs
    let cmd := { cmd with Env := applyEnv os.Environ req.Env }
    let r := fx.CombinedOutput cmd disk
    let response : RunResponse := { Output := decodeOutput os r.output, Error := "" }
    let response :=
      match r.err with
      | some e => { response with Error := e }
      | none => response
    some { response := response, launched := some cmd, reindex := false, disk := r.disk }

/-! ## The loops of `updateIndex` as list comprehensions -/

/-- The symbol `updateIndex` appends for one name of a value spec. -/
def nameSymbol (Position : token.Pos → token.Position) (path : String) (Tok : token.Token)
    (name : ast.Ident) : Symbol :=
  { Name := name.Name, Kind := if Tok = token.Token.CONST then "Constant" else "Variable",
    Path := path, Line := (Position name.Pos).Line, Character := (Position name.Pos).Column }

/-- The symbols `updateIndex` appends for one spec. -/
def specSymbols (Position : token.Pos → token.Position) (path : String) (Tok : token.Token) :
    ast.Spec → List Symbol
  | .TypeSpec Name =>
    [{ Name := Name.Name, Kind := "Struct", Path := path,
       Line := (Position (ast.TypeSpec.Pos Name)).Line,
       Character := (Position (ast.TypeSpec.Pos Name)).Column }]
  | .ValueSpec Names => Names.map (nameSymbol Position path Tok)
  | .ImportSpec _ => []

/-- The symbols `updateIndex` appends for one declaration. -/
def declSymbols (Position : token.Pos → token.Position) (path : String) : ast.Decl → List Symbol
  | .FuncDecl fn =>
    [{ Name := fn.Name.Name, Kind := if fn.Recv.isSome then "Method" else "Function", Path := path,
       Line := (Position fn.Pos).Line, Character := (Position fn.Pos).Column }]
  | .GenDecl gen => gen.Specs.flatMap (specSymbols Position path gen.Tok)
  | .BadDecl _ _ => []

/-! ## The walk of `updateIndex` as a recursion over the tree -/

/-- The symbols `updateIndex` appends when the walk reaches a non-directory entry. -/
def fileSymbols (os : OS) (path : String) : List Symbol :=
  if strings.HasSuffix path ".go" then
    match os.ParseFile path with
    | none => []
    | some f => f.Decls.flatMap (declSymbols os.Position path)
  else []

mutual
/-- The symbols `updateIndex` appends while `walkDir` visits a node. -/
def treeSymbols (os : OS) (path : String) : FsNode → List Symbol
  | .file _ => fileSymbols os path
  | .dir n _ children => if skipsDir n then [] else entriesSymbols os path children
/-- The symbols `updateIndex` appends while `walkDir` visits the entries of a directory. -/
def entriesSymbols (os : OS) (dir : String) : List FsNode → List Symbol
  | [] => []
  | d1 :: rest => treeSymbols os (filepath.Join [dir, d1.entry.Name]) d1 ++ entriesSymbols os dir rest
end

/-! # Specifications

The definitions below follow the wording of the specification; the theorems
compare them with the embedding above. -/

/-! ## Recorded positions -/

/-- What a symbol says besides its name, kind and path: the position it records. -/
def Symbol.recorded (s : Symbol) : String × Int × Int := (s.Name, s.Line, s.Character)

/-- The name identifiers of the symbols a file-scope declaration declares, in order. -/
def nameTokens : ast.Decl → List ast.Ident
  | .FuncDecl fn => [fn.Name]
  | .GenDecl gen => gen.Specs.flatMap fun spec =>
      match spec with
      | .TypeSpec Name => [Name]
      | .ValueSpec Names => Names
      | .ImportSpec _ => []
  | .BadDecl _ _ => []

/-- A symbol name with the line and column of the token at `p`. -/
def located (Position : token.Pos → token.Position) (name : String) (p : token.Pos) :
    String × Int × Int :=
  (name, (Position p).Line, (Position p).Column)

/-- The claimed record of a file: every declared name with the position of its name token. -/
def nameTokenRecords (Position : token.Pos → token.Position) (f : ast.File) :
    List (String × Int × Int) :=
  (f.Decls.flatMap nameTokens).map fun id => located Position id.Name id.NamePos

/-- The record of a file as amended: a function or method is located at its `func`
keyword, a type and a variable or constant at its name token. -/
def anchorRecords (Position : token.Pos → token.Position) : ast.Decl → List (String × Int × Int)
  | .FuncDecl fn => [located Position fn.Name.Name fn.Typ.Func]
  | .GenDecl gen => gen.Specs.flatMap fun spec =>
      match spec with
      | .TypeSpec Name => [located Position Name.Name Name.NamePos]
      | .ValueSpec Names => Names.map fun id => located Position id.Name id.NamePos
      | .ImportSpec _ => []
  | .BadDecl _ _ => []

/-- A parsed function declaration carries the position of its `func` keyword. -/
def funcKeywordsValid (f : ast.File) : Prop :=
  ∀ fn, ast.Decl.FuncDecl fn ∈ f.Decls → fn.Typ.Func ≠ token.NoPos

/-- The file set positions of a one-file set holding `package main⏎⏎func main() {}⏎`:
base 1, lines starting at offsets 0, 13 and 14. -/
def examplePosition (p : token.Pos) : token.Position :=
  let offset := p - 1
  if offset < 13 then ⟨"/w/main.go", offset, 1, offset + 1⟩
  else if offset < 14 then ⟨"/w/main.go", offset, 2, offset - 13 + 1⟩
  else ⟨"/w/main.go", offset, 3, offset - 14 + 1⟩

/-- The syntax tree of `package main⏎⏎func main() {}⏎`: the keyword `func` at position 15
(line 3, column 1), the name `main` at position 20 (line 3, column 6). -/
def exampleFile : ast.File :=
  { Name := ⟨9, "main"⟩,
    Decls := [.FuncDecl { Recv := none, Name := ⟨20, "main"⟩, Typ := ⟨15, some ⟨24, []⟩⟩, Body := some [] }] }

/-- A filesystem state: the workspace `/w` holds `main.go`, a hidden directory and a
file that does not parse. -/
def exampleOS : OS where
  GOOS := "linux"
  Lstat := fun p =>
    if p = "/w" then
      some (.dir "w" false [.file "broken.go", .dir ".git" false [.file "hook.go"], .file "main.go"])
    else none
  ParseFile := fun p => if p = "/w/main.go" ∨ p = "/w/.git/hook.go" then some exampleFile else none
  Position := examplePosition
  Stat := fun _ => none
  Getwd := some "/srv/editor"
  ReadDir := fun _ => []
  LookPath := fun _ => none
  Environ := ["PATH=/usr/bin", "GOPATH=/home/u/go"]
  DecodeGBK := fun _ => none

/-- An initial state with a stale index. -/
def exampleState : State :=
  { currentWorkDir := "/w",
    symbolCache := [{ Name := "old", Kind := "Function", Path := "/w/old.go", Line := 1, Character := 1 }] }

/-! ## The published sequence -/

/-- What the specification says of a published symbol: its name, kind and path. -/
def Symbol.declared (s : Symbol) : String × String × String := (s.Name, s.Kind, s.Path)

/-- The symbols of one file-scope declaration: one per function declaration (a method
if and only if it has a receiver), one `Struct` per type spec, one per name of a value
spec (a constant if and only if the keyword is `const`).  Function bodies are not looked at. -/
def declaredBy (path : String) : ast.Decl → List (String × String × String)
  | .FuncDecl fn => [(fn.Name.Name, if fn.Recv.isSome then "Method" else "Function", path)]
  | .GenDecl gen => gen.Specs.flatMap fun spec =>
      match spec with
      | .TypeSpec Name => [(Name.Name, "Struct", path)]
      | .ValueSpec Names =>
        Names.map fun id => (id.Name, if gen.Tok = token.Token.CONST then "Constant" else "Variable", path)
      | .ImportSpec _ => []
  | .BadDecl _ _ => []

mutual
/-- The non-directory entries at or below a node in visit order, as path and name. -/
def filesOf (path : String) : FsNode → List (String × String)
  | .file n => [(path, n)]
  | .dir _ _ children => filesBelow path children
/-- The non-directory entries below a directory in visit order, as path and name,
leaving out what lies inside a pruned subdirectory. -/
def filesBelow (dir : String) : List FsNode → List (String × String)
  | [] => []
  | d1 :: rest =>
    (if d1.entry.IsDir && skipsDir d1.entry.Name then []
      else filesOf (filepath.Join [dir, d1.entry.Name]) d1) ++ filesBelow dir rest
end

/-- The declarations of the file at `path`, if it parses. -/
def declaredIn (os : OS) (path : String) : List (String × String × String) :=
  match os.ParseFile path with
  | none => []
  | some f => f.Decls.flatMap (declaredBy path)

/-- The declarations the specification lists for the files `files`, given as path and name. -/
def declaredOf (os : OS) (files : List (String × String)) : List (String × String × String) :=
  (files.filter fun pn => strings.HasSuffix pn.2 ".go").flatMap fun pn => declaredIn os pn.1

/-- The index the specification describes for the entries `children` of the directory
`root`: over the files below `root` whose name ends in `.go`, outside pruned
subdirectories, in visit order, the declarations of those that parse. -/
def specIndex (os : OS) (root : String) (children : List FsNode) : List (String × String × String) :=
  declaredOf os (filesBelow root children)

/-- A name a directory listing can hold: not empty, without separator, neither `.` nor `..`. -/
def validName (n : String) : Bool :=
  n ≠ "" ∧ filepath.Separator ∉ n.data ∧ n ≠ "." ∧ n ≠ ".."

mutual
/-- Every entry at or below the node has a valid name. -/
def validNames : FsNode → Bool
  | .file n => validName n
  | .dir n _ children => validName n && validNamesAll children
/-- Every entry below a directory has a valid name. -/
def validNamesAll : List FsNode → Bool
  | [] => true
  | d1 :: rest => validNames d1 && validNamesAll rest
end

mutual
/-- The tree with the content of every pruned directory taken out. -/
def hideSkipped : FsNode → FsNode
  | .file n => .file n
  | .dir n readErr children =>
    if skipsDir n then .dir n false [] else .dir n readErr (hideSkippedAll children)
/-- The entries with the content of every pruned directory taken out. -/
def hideSkippedAll : List FsNode → List FsNode
  | [] => []
  | d1 :: rest => hideSkipped d1 :: hideSkippedAll rest
end

/-- `Reaches path t dirs file`: the non-directory entry with path `file` lies at or below
the node `t` found at `path`, and `dirs` are the names of the directories on the way
down to it, `t` included. -/
inductive Reaches : String → FsNode → List String → String → Prop where
  | file (path n : String) : Reaches path (.file n) [] path
  | dir (path n : String) (readErr : Bool) (children : List FsNode) (d1 : FsNode)
      (dirs : List String) (file : String) :
      d1 ∈ children → Reaches (filepath.Join [path, d1.entry.Name]) d1 dirs file →
      Reaches path (.dir n readErr children) (n :: dirs) file

mutual
/-- The tree found at `path` without the non-directory entry `target`; `none` when the
node is that entry. -/
def removeFile (target path : String) : FsNode → Option FsNode
  | .file n => if path = target then none else some (.file n)
  | .dir n readErr children => some (.dir n readErr (removeFileAll target path children))
/-- The entries of the directory `dir` without the non-directory entry `target`. -/
def removeFileAll (target dir : String) : List FsNode → List FsNode
  | [] => []
  | d1 :: rest =>
    match removeFile target (filepath.Join [dir, d1.entry.Name]) d1 with
    | none => removeFileAll target dir rest
    | some d1' => d1' :: removeFileAll target dir rest
end

/-- The filesystem state without the non-directory entry `target`. -/
def OS.without (os : OS) (target : String) : OS :=
  { os with Lstat := fun p => (os.Lstat p).bind (removeFile target p) }

/-- A filesystem state whose workspace root is the hidden directory `/home/u/.proj`. -/
def hiddenRootOS : OS :=
  { exampleOS with
    Lstat := fun p => if p = "/home/u/.proj" then some (.dir ".proj" false [.file "main.go"]) else none
    ParseFile := fun p => if p = "/home/u/.proj/main.go" then some exampleFile else none }

/-- The names of the directories a path passes through: its elements but the last. -/
def pathDirs (path : String) : List String :=
  ((filepath.splitSep path.data).map String.mk).dropLast

/-- A filesystem state whose workspace root `/home/u/.proj/sub` lies below the hidden
directory `/home/u/.proj`. -/
def nestedRootOS : OS :=
  { exampleOS with
    Lstat := fun p =>
      if p = "/home/u/.proj/sub" then some (.dir "sub" false [.file "main.go"]) else none
    ParseFile := fun p => if p = "/home/u/.proj/sub/main.go" then some exampleFile else none }

/-! ## Import resolution -/

/-- The path names an existing entry that is not a directory. -/
def isFile (os : OS) (path : String) : Bool :=
  match os.Stat path with
  | some info => !info.IsDir
  | none => false

/-- A filesystem state in which `/a/b/d` and `/a/b/d.go` are both regular files. -/
def plainAndGoOS : OS :=
  { exampleOS with
    Stat := fun p =>
      if p = "/a/b/d" ∨ p = "/a/b/d.go" ∨ p = "/a/b/c.go" then some ⟨false⟩
      else if p = "/" ∨ p = "/a" ∨ p = "/a/b" then some ⟨true⟩
      else none }

/-- A filesystem state in which `/a/b/d.go` does not exist, `/a/b/d` is a directory
holding `index.go`, and `/a/b/d.ts` is a regular file. -/
def scriptAndIndexOS : OS :=
  { exampleOS with
    Stat := fun p =>
      if p = "/a/b/d.ts" ∨ p = "/a/b/d/index.go" ∨ p = "/a/b/c.go" then some ⟨false⟩
      else if p = "/" ∨ p = "/a" ∨ p = "/a/b" ∨ p = "/a/b/d" then some ⟨true⟩
      else none }

/-- A filesystem state in which neither `/a/b/d.go` nor `/a/b/d/index.go` exists and
`/a/b/d.ts` is a regular file. -/
def scriptOnlyOS : OS :=
  { exampleOS with
    Stat := fun p =>
      if p = "/a/b/d.ts" ∨ p = "/a/b/c.go" then some ⟨false⟩
      else if p = "/" ∨ p = "/a" ∨ p = "/a/b" then some ⟨true⟩
      else none }

/-- A filesystem state in which `/a/b/d.go` is the only candidate that exists. -/
def goOnlyOS : OS :=
  { exampleOS with
    Stat := fun p =>
      if p = "/a/b/d.go" ∨ p = "/a/b/c.go" then some ⟨false⟩
      else if p = "/" ∨ p = "/a" ∨ p = "/a/b" then some ⟨true⟩
      else none }

/-- A filesystem state in which `/a/b/d` is a directory holding `index.go` and nothing else. -/
def indexOnlyOS : OS :=
  { exampleOS with
    Stat := fun p =>
      if p = "/a/b/d/index.go" ∨ p = "/a/b/c.go" then some ⟨false⟩
      else if p = "/" ∨ p = "/a" ∨ p = "/a/b" ∨ p = "/a/b/d" then some ⟨true⟩
      else none }

/-- A filesystem state whose workspace `/w` holds `lib/util.ts` both directly and under `src`. -/
def aliasOS : OS :=
  { exampleOS with
    Stat := fun p =>
      if p = "/w/lib/util.ts" ∨ p = "/w/src/lib/util.ts" ∨ p = "/w/src/only.js" then some ⟨false⟩
      else if p = "/" ∨ p = "/w" ∨ p = "/w/lib" ∨ p = "/w/src" ∨ p = "/w/src/lib" then some ⟨true⟩
      else none }

/-! ## Toolchain location -/

/-- The name of an executable on the platform: with `.exe` on Windows. -/
def platformExe (os : OS) (path : String) : String :=
  if os.GOOS = "windows" then path ++ ".exe" else path

/-- The candidate toolchain paths below the working directory, in probing order:
`<cwd>/go/bin/go`, then for every immediate subdirectory `s` in listing order
`<cwd>/s/go/bin/go` and `<cwd>/s/bin/go`. -/
def candidates (cwd : String) (entries : List DirEntry) : List String :=
  filepath.Join [cwd, "go", "bin", "go"] ::
    (entries.filter fun s => s.IsDir).flatMap fun s =>
      [filepath.Join [cwd, s.Name, "go", "bin", "go"], filepath.Join [cwd, s.Name, "bin", "go"]]

/-- The toolchain the specification locates without an override, as amended: the
first candidate (with the platform's executable suffix) that is an existing
non-directory file, else what the search path gives for `go`, else the bare name;
the bare name at once when the working directory cannot be determined. -/
def locateSpec (os : OS) : String :=
  match os.Getwd with
  | none => "go"
  | some cwd =>
    match ((candidates cwd (os.ReadDir cwd)).map (platformExe os)).find? (isFile os) with
    | some path => path
    | none => (os.LookPath "go").getD "go"

/-- A filesystem state in which the working directory cannot be determined and `go` is
on the search path. -/
def noCwdOS : OS :=
  { exampleOS with
    Getwd := none
    LookPath := fun name => if name = "go" then some "/usr/bin/go" else none }

/-- A filesystem state with a toolchain unpacked in the subdirectory `sdk` of the
working directory `/srv/editor`. -/
def bundledOS : OS :=
  { exampleOS with
    ReadDir := fun p =>
      if p = "/srv/editor" then [⟨"README.md", false⟩, ⟨"frontend", true⟩, ⟨"sdk", true⟩] else []
    Stat := fun p =>
      if p = "/srv/editor/sdk/bin/go" then some ⟨false⟩
      else if p = "/srv/editor/sdk/go" then none
      else if p = "/srv/editor" ∨ p = "/srv/editor/frontend" ∨ p = "/srv/editor/sdk"
          ∨ p = "/srv/editor/sdk/bin" then some ⟨true⟩
      else none
    LookPath := fun name => if name = "go" then some "/usr/bin/go" else none }

/-! ## The subprocess: working directory and environment -/

/-- The directory a subprocess started from `cmd` runs in: `cmd.Dir`, or the calling
process's current directory when `cmd.Dir` is empty. -/
def workingDirectory (os : OS) (cmd : Cmd) : Option String :=
  if cmd.Dir = "" then os.Getwd else some cmd.Dir

/-- The path lies inside the directory `root`: it begins with `root` followed by a
separator (`root` itself when it already ends in one). -/
def liesUnder (root path : String) : Bool :=
  if strings.HasSuffix root "/" then strings.HasPrefix path root
  else strings.HasPrefix path (root ++ "/")

/-- The name of an environment entry `name=value`: what stands before the first `=`. -/
def entryName (entry : String) : List Char := entry.data.takeWhile fun c => c ≠ '='

/-- The value of an environment entry `name=value`: what stands after the first `=`. -/
def entryValue (entry : String) : String :=
  String.mk ((entry.data.dropWhile fun c => c ≠ '=').drop 1)

/-- The entry sets the variable `k`. -/
def setsVar (k : String) (entry : String) : Bool :=
  '=' ∈ entry.data ∧ entryName entry = k.data

/-- The effective value of the variable `k` in an environment: the value of the last
entry that sets it. -/
def effective (env : List String) (k : String) : Option String :=
  (env.reverse.find? (setsVar k)).map entryValue

/-- The keys of an override mapping are distinct variable names (without `=`). -/
def validOverrides (env : List (String × String)) : Prop :=
  (env.map Prod.fst).Nodup ∧ ∀ kv ∈ env, '=' ∉ kv.1.data

/-- Effects in which every call succeeds: the scratch file is `/tmp/main_123.go` and
the subprocess prints `ok` and leaves the disk alone. -/
def okEffects : Effects where
  WriteFile := none
  CreateTemp := .ok "/tmp/main_123.go"
  TmpWrite := none
  CombinedOutput := fun _ disk => ⟨"ok", none, disk⟩

/-- An empty disk. -/
def emptyDisk : Disk := fun _ => none

/-- A run request without target path. -/
def scratchRequest : RunRequest :=
  { Code := "package main", Path := "", Env := [("GOPROXY", ""), ("GOPATH", "/opt/gopath")] }

/-- A run request for a file of the workspace `/w`. -/
def workspaceRequest : RunRequest :=
  { Code := "package main", Path := "/w/cmd/main.go", Env := [("GOPROXY", ""), ("GOPATH", "/opt/gopath")] }

/-- A run request for a file outside the workspace `/w`. -/
def outsideRequest : RunRequest :=
  { Code := "package main", Path := "/home/u/play/main.go", Env := [] }

/-- A run request for a file of the directory `/w2`, next to the workspace `/w`. -/
def siblingRequest : RunRequest :=
  { Code := "package main", Path := "/w2/main.go", Env := [] }

/-- The entry `handleRun` and `handleCmd` append for one override. -/
def overrideEntry (kv : String × String) : String := kv.1 ++ "=" ++ kv.2

/-- A command request. -/
def exampleCmdRequest : CmdRequest :=
  { Command := "go  version", Env := [("GOPROXY", ""), ("GOPATH", "/opt/gopath")] }

/-- The command `handleRun` starts for `workspaceRequest`. -/
def exampleRunCmd : Cmd :=
  { Args := ["go", "run", "/w/cmd/main.go"], Dir := "/w",
    Env := ["PATH=/usr/bin", "GOPATH=/home/u/go", "GOPATH=/opt/gopath"] }

/-- The command `handleCmd` starts for `exampleCmdRequest`. -/
def exampleShellCmd : Cmd :=
  { Args := ["go", "version"], Dir := "",
    Env := ["PATH=/usr/bin", "GOPATH=/home/u/go", "GOPATH=/opt/gopath"] }

/-- A filesystem state whose process environment is `A=1`. -/
def oddKeyOS : OS := { exampleOS with Environ := ["A=1"] }

/-- A run request whose override mapping has the key `A=B`. -/
def oddKeyRequest : RunRequest :=
  { Code := "package main", Path := "", Env := [("A=B", "c")] }

/-! ## The scratch file -/

/-- The filesystem state `exampleOS` on Windows. -/
def windowsOS : OS := { exampleOS with GOOS := "windows" }

/-- Effects in which the scratch file `C:\Temp\main_123.go` is created and writing the
source into it fails. -/
def writeFailEffects : Effects :=
  { okEffects with
    CreateTemp := .ok "C:\\Temp\\main_123.go"
    TmpWrite := some "There is not enough space on the disk." }

/-- Effects in which the scratch file `C:\Temp\main_123.go` is created and written, and
the subprocess exits with status 1. -/
def exitOneEffects : Effects :=
  { okEffects with
    CreateTemp := .ok "C:\\Temp\\main_123.go"
    CombinedOutput := fun _ disk => ⟨"main_123.go:1:1: syntax error", some "exit status 1", disk⟩ }

/-- A disk holding one other file. -/
def notesDisk : Disk := fun p => if p = "C:\\Temp\\notes.txt" then some "keep" else none

/-! # Theorems -/

/-! ## The loops of `updateIndex` -/

theorem foldl_append_eq {α β : Type} (g : α → List β) (l : List α) (acc : List β) :
    l.foldl (fun acc a => acc ++ g a) acc = acc ++ l.flatMap g := by
  induction l generalizing acc with
  | nil => simp
  | cons a l ih => simp [List.foldl_cons, ih, List.flatMap_cons, List.append_assoc]

theorem flatMap_singleton_eq_map {α β : Type} (g : α → β) (l : List α) :
    l.flatMap (fun a => [g a]) = l.map g := by
  induction l with
  | nil => rfl
  | cons a l ih => simp [List.flatMap_cons, ih]

theorem indexNames_eq (Position : token.Pos → token.Position) (path : String) (Tok : token.Token)
    (symbols : List Symbol) (Names : List ast.Ident) :
    indexNames Position path Tok symbols Names
      = symbols ++ Names.map (nameSymbol Position path Tok) := by
  rw [← flatMap_singleton_eq_map]
  exact foldl_append_eq (fun name => [nameSymbol Position path Tok name]) Names symbols

theorem indexSpecs_eq (Position : token.Pos → token.Position) (path : String) (gen : ast.GenDecl)
    (symbols : List Symbol) :
    indexSpecs Position path gen symbols
      = symbols ++ gen.Specs.flatMap (specSymbols Position path gen.Tok) := by
  unfold indexSpecs
  rw [← foldl_append_eq]
  congr 1
  funext acc spec
  cases spec with
  | ImportSpec p => simp [specSymbols]
  | ValueSpec Names => simp [specSymbols, indexNames_eq]
  | TypeSpec Name => simp [specSymbols]

theorem indexDecls_eq (Position : token.Pos → token.Position) (path : String) (f : ast.File)
    (symbols : List Symbol) :
    indexDecls Position path f symbols = symbols ++ f.Decls.flatMap (declSymbols Position path) := by
  unfold indexDecls
  rw [← foldl_append_eq]
  congr 1
  funext acc decl
  cases decl with
  | BadDecl a b => simp [declSymbols]
  | GenDecl gen => simp [declSymbols, indexSpecs_eq]
  | FuncDecl fn => simp [declSymbols]

/-! ## The walk of `updateIndex` -/

theorem updateIndexFn_file (os : OS) (path n : String) (s : List Symbol) :
    updateIndexFn os path (some ⟨n, false⟩) false s = (none, s ++ fileSymbols os path) := by
  unfold updateIndexFn fileSymbols
  by_cases hgo : strings.HasSuffix path ".go" = true
  · cases hp : os.ParseFile path with
    | none => simp [hgo]
    | some f => simp [hgo, indexDecls_eq]
  · simp [hgo]

theorem updateIndexFn_dir (os : OS) (path n : String) (s : List Symbol) :
    updateIndexFn os path (some ⟨n, true⟩) false s
      = (if skipsDir n then some WalkErr.SkipDir else none, s) := by
  unfold updateIndexFn
  by_cases h : skipsDir n = true <;> simp [h]

theorem updateIndexFn_err (os : OS) (path : String) (d : Option DirEntry) (s : List Symbol) :
    updateIndexFn os path d true s = (none, s) := by
  simp [updateIndexFn]

mutual
theorem walkDir_updateIndexFn (os : OS) :
    ∀ (t : FsNode) (path : String) (s : List Symbol),
      walkDir (updateIndexFn os) path t s = (none, s ++ treeSymbols os path t)
  | .file n, path, s => by
    rw [walkDir, treeSymbols, updateIndexFn_file]
  | .dir n readErr children, path, s => by
    rw [walkDir, treeSymbols, updateIndexFn_dir]
    by_cases h : skipsDir n = true
    · simp [h]
    · simp only [h, updateIndexFn_err]
      have := walkDirEntries_updateIndexFn os children path s
      cases readErr <;> simpa using this
theorem walkDirEntries_updateIndexFn (os : OS) :
    ∀ (children : List FsNode) (path : String) (s : List Symbol),
      walkDirEntries (updateIndexFn os) path children s = (none, s ++ entriesSymbols os path children)
  | [], path, s => by
    rw [walkDirEntries, entriesSymbols, List.append_nil]
  | d1 :: rest, path, s => by
    rw [walkDirEntries, entriesSymbols, walkDir_updateIndexFn os d1]
    simp only []
    rw [walkDirEntries_updateIndexFn os rest, List.append_assoc]
end

theorem indexTree_some (os : OS) (root : String) (t : FsNode) :
    indexTree os root (some t) = treeSymbols os root t := by
  simp [indexTree, WalkDir, walkDir_updateIndexFn]

theorem indexTree_none (os : OS) (root : String) : indexTree os root none = [] := by
  simp [indexTree, WalkDir, updateIndexFn_err]

/-! ## C1: the recorded position -/

theorem funcDecl_pos_eq_keyword (fn : ast.FuncDecl) (h : fn.Typ.Func ≠ token.NoPos) :
    fn.Pos = fn.Typ.Func := by
  unfold ast.FuncDecl.Pos ast.FuncType.Pos
  cases fn.Typ.Params with
  | none => rfl
  | some ps => simp [h]

theorem specSymbols_recorded (Position : token.Pos → token.Position) (path : String)
    (Tok : token.Token) (spec : ast.Spec) :
    (specSymbols Position path Tok spec).map Symbol.recorded
      = (match spec with
        | .TypeSpec Name => [located Position Name.Name Name.NamePos]
        | .ValueSpec Names => Names.map fun id => located Position id.Name id.NamePos
        | .ImportSpec _ => []) := by
  cases spec with
  | ImportSpec p => rfl
  | ValueSpec Names =>
    simp [specSymbols, List.map_map, Function.comp_def, nameSymbol, Symbol.recorded, located,
      ast.Ident.Pos]
  | TypeSpec Name => rfl

theorem declSymbols_recorded (Position : token.Pos → token.Position) (path : String)
    (decl : ast.Decl) (h : ∀ fn, decl = .FuncDecl fn → fn.Typ.Func ≠ token.NoPos) :
    (declSymbols Position path decl).map Symbol.recorded = anchorRecords Position decl := by
  cases decl with
  | BadDecl a b => rfl
  | GenDecl gen =>
    simp only [declSymbols, anchorRecords, List.map_flatMap]
    congr 1
    funext spec
    exact specSymbols_recorded Position path gen.Tok spec
  | FuncDecl fn =>
    simp [declSymbols, anchorRecords, Symbol.recorded, located,
      funcDecl_pos_eq_keyword fn (h fn rfl)]

theorem flatMap_congr_mem {α β : Type} (l : List α) (g₁ g₂ : α → List β)
    (h : ∀ a ∈ l, g₁ a = g₂ a) : l.flatMap g₁ = l.flatMap g₂ := by
  induction l with
  | nil => rfl
  | cons a l ih =>
    simp only [List.flatMap_cons]
    rw [h a (List.mem_cons_self a l), ih (fun b hb => h b (List.mem_cons_of_mem a hb))]

theorem path_of_mem_declSymbols (Position : token.Pos → token.Position) (path : String)
    (decl : ast.Decl) (sym : Symbol) (h : sym ∈ declSymbols Position path decl) :
    sym.Path = path := by
  cases decl with
  | BadDecl a b => simp [declSymbols] at h
  | GenDecl gen =>
    simp only [declSymbols, List.mem_flatMap] at h
    obtain ⟨spec, _, hs⟩ := h
    cases spec with
    | ImportSpec p => simp [specSymbols] at hs
    | ValueSpec Names =>
      simp only [specSymbols, List.mem_map] at hs
      obtain ⟨id, _, rfl⟩ := hs
      rfl
    | TypeSpec Name =>
      simp only [specSymbols, List.mem_singleton] at hs
      rw [hs]
  | FuncDecl fn =>
    simp only [declSymbols, List.mem_singleton] at h
    rw [h]

theorem mem_flatMap_anchorRecords (Position : token.Pos → token.Position) (path : String)
    (f : ast.File) (h : funcKeywordsValid f) (sym : Symbol)
    (hsym : sym ∈ f.Decls.flatMap (declSymbols Position path)) :
    ∃ decl, decl ∈ f.Decls ∧ sym.Path = path ∧ sym.recorded ∈ anchorRecords Position decl := by
  obtain ⟨decl, hdecl, hmem⟩ := List.mem_flatMap.1 hsym
  refine ⟨decl, hdecl, path_of_mem_declSymbols Position path decl sym hmem, ?_⟩
  rw [← declSymbols_recorded Position path decl (fun fn hfn => h fn (hfn ▸ hdecl))]
  exact List.mem_map_of_mem _ hmem

mutual
theorem mem_fileSymbols_of_mem_treeSymbols (os : OS) :
    ∀ (t : FsNode) (path : String) (sym : Symbol), sym ∈ treeSymbols os path t →
      ∃ p, sym ∈ fileSymbols os p
  | .file n, path, sym, h => by
    rw [treeSymbols] at h
    exact ⟨path, h⟩
  | .dir n e cs, path, sym, h => by
    rw [treeSymbols] at h
    by_cases hs : skipsDir n = true
    · simp [hs] at h
    · simp only [hs, if_false] at h
      exact mem_fileSymbols_of_mem_entriesSymbols os cs path sym h
theorem mem_fileSymbols_of_mem_entriesSymbols (os : OS) :
    ∀ (cs : List FsNode) (path : String) (sym : Symbol), sym ∈ entriesSymbols os path cs →
      ∃ p, sym ∈ fileSymbols os p
  | [], path, sym, h => by
    simp [entriesSymbols] at h
  | d1 :: rest, path, sym, h => by
    rw [entriesSymbols, List.mem_append] at h
    rcases h with h | h
    · exact mem_fileSymbols_of_mem_treeSymbols os d1 _ sym h
    · exact mem_fileSymbols_of_mem_entriesSymbols os rest path sym h
end

/-- C1, as amended: of the symbols `updateIndex` records from a parsed file, a type, a
variable and a constant carry the line and column of their name identifier, and a
function or a method carries the line and column of its `func` keyword (the start of
the declaration, `fn.Pos()`), not of its name: so for the loop over the declarations
of one file, in declaration order, and so for every symbol `updateIndex` publishes. -/
theorem C1_recorded_positions (os : OS) (root : String) (st : State)
    (hparsed : ∀ path f, os.ParseFile path = some f → funcKeywordsValid f) :
    (∀ path f symbols, os.ParseFile path = some f →
        (indexDecls os.Position path f symbols).map Symbol.recorded
          = symbols.map Symbol.recorded ++ f.Decls.flatMap (anchorRecords os.Position)) ∧
      (∀ sym ∈ handleSymbols (updateIndex os root st),
        ∃ path f decl, os.ParseFile path = some f ∧ decl ∈ f.Decls ∧ sym.Path = path ∧
          sym.recorded ∈ anchorRecords os.Position decl) := by
  constructor
  · intro path f symbols hf
    rw [indexDecls_eq, List.map_append, List.map_flatMap]
    congr 1
    apply flatMap_congr_mem
    intro decl hmem
    apply declSymbols_recorded
    intro fn hfn
    exact hparsed path f hf fn (hfn ▸ hmem)
  · intro sym hsym
    simp only [handleSymbols, updateIndex] at hsym
    cases ht : os.Lstat root with
    | none => simp [ht, indexTree_none] at hsym
    | some t =>
      rw [ht, indexTree_some] at hsym
      obtain ⟨p, hp⟩ := mem_fileSymbols_of_mem_treeSymbols os t root sym hsym
      unfold fileSymbols at hp
      split at hp
      · cases hf : os.ParseFile p with
        | none => simp [hf] at hp
        | some f =>
          simp only [hf] at hp
          obtain ⟨decl, hdecl, hpath, hrec⟩ :=
            mem_flatMap_anchorRecords os.Position p f (hparsed p f hf) sym hp
          exact ⟨p, f, decl, hf, hdecl, hpath, hrec⟩
      · simp at hp

theorem exampleFile_funcKeywordsValid : funcKeywordsValid exampleFile := by
  intro fn hfn
  simp [exampleFile] at hfn
  subst hfn
  decide

theorem exampleOS_parsed (path : String) (f : ast.File)
    (h : exampleOS.ParseFile path = some f) : funcKeywordsValid f := by
  simp only [exampleOS] at h
  split at h
  · simp only [Option.some.injEq] at h
    rw [← h]
    exact exampleFile_funcKeywordsValid
  · simp at h

/-- C1, witness: the file `package main⏎⏎func main() {}⏎` is recorded at line 3, column 1. -/
theorem C1_recorded_positions_witness :
    (indexDecls exampleOS.Position "/w/main.go" exampleFile []).map Symbol.recorded
        = [("main", 3, 1)] ∧
      (∀ sym ∈ handleSymbols (updateIndex exampleOS "/w" exampleState),
        ∃ path f decl, exampleOS.ParseFile path = some f ∧ decl ∈ f.Decls ∧ sym.Path = path ∧
          sym.recorded ∈ anchorRecords exampleOS.Position decl) :=
  ⟨(C1_recorded_positions exampleOS "/w" exampleState exampleOS_parsed).1
      "/w/main.go" exampleFile [] rfl,
    (C1_recorded_positions exampleOS "/w" exampleState exampleOS_parsed).2⟩

/-- C1, counterexample: for `package main⏎⏎func main() {}⏎` the published symbol `main`
carries line 3, column 1, the place of the keyword `func`, while its name identifier
stands at line 3, column 6. -/
theorem C1_counterexample :
    exampleOS.ParseFile "/w/main.go" = some exampleFile ∧
      (handleSymbols (updateIndex exampleOS "/w" exampleState)).map Symbol.recorded
        = [("main", 3, 1)] ∧
      nameTokenRecords exampleOS.Position exampleFile = [("main", 3, 6)] ∧
      (handleSymbols (updateIndex exampleOS "/w" exampleState)).map Symbol.recorded
        ≠ nameTokenRecords exampleOS.Position exampleFile := by
  refine ⟨rfl, ?_, ?_, ?_⟩ <;> decide

/-! ## `filepath.Join` with a directory entry's name -/

theorem splitSep_ne_nil (l : List Char) : filepath.splitSep l ≠ [] := by
  cases l with
  | nil => simp [filepath.splitSep]
  | cons c cs =>
    unfold filepath.splitSep
    by_cases h : c = filepath.Separator
    · simp [h]
    · cases filepath.splitSep cs <;> simp [h]

theorem splitSep_of_not_mem (n : List Char) (h : filepath.Separator ∉ n) :
    filepath.splitSep n = [n] := by
  induction n with
  | nil => rfl
  | cons c cs ih =>
    have hc : c ≠ filepath.Separator := fun e => h (e ▸ List.mem_cons_self c cs)
    have hcs : filepath.Separator ∉ cs := fun m => h (List.mem_cons_of_mem c m)
    unfold filepath.splitSep
    simp [hc, ih hcs]

theorem splitSep_append_sep (a b : List Char) :
    filepath.splitSep (a ++ filepath.Separator :: b) = filepath.splitSep a ++ filepath.splitSep b := by
  induction a with
  | nil => simp [filepath.splitSep]
  | cons c cs ih =>
    by_cases hc : c = filepath.Separator
    · simp [filepath.splitSep, hc, ih]
    · have h1 : filepath.splitSep (c :: (cs ++ filepath.Separator :: b))
          = (match filepath.splitSep (cs ++ filepath.Separator :: b) with
            | [] => [[c]]
            | h :: t => (c :: h) :: t) := by
        rw [filepath.splitSep]; simp [hc]
      have h2 : filepath.splitSep (c :: cs)
          = (match filepath.splitSep cs with
            | [] => [[c]]
            | h :: t => (c :: h) :: t) := by
        rw [filepath.splitSep]; simp [hc]
      rw [List.cons_append, h1, h2, ih]
      cases hs : filepath.splitSep cs with
      | nil => exact absurd hs (splitSep_ne_nil cs)
      | cons x xs => simp

theorem intercalate_snoc (sep n : List Char) (L : List (List Char)) :
    ∃ X, List.intercalate sep (L ++ [n]) = X ++ n ∧ (X = [] ∨ ∃ Y, X = Y ++ sep) := by
  induction L with
  | nil => exact ⟨[], by simp [List.intercalate, List.intersperse], Or.inl rfl⟩
  | cons a L ih =>
    obtain ⟨X, hX, hXs⟩ := ih
    have hstep : List.intercalate sep (a :: L ++ [n]) = a ++ sep ++ List.intercalate sep (L ++ [n]) := by
      cases L with
      | nil => simp [List.intercalate, List.intersperse]
      | cons b L => simp [List.intercalate, List.intersperse]
    refine ⟨a ++ sep ++ X, by rw [hstep, hX]; simp, ?_⟩
    rcases hXs with rfl | ⟨Y, rfl⟩
    · exact Or.inr ⟨a, by simp⟩
    · exact Or.inr ⟨a ++ sep ++ Y, by simp⟩

theorem validName_data (n : String) (h : validName n = true) :
    n.data ≠ [] ∧ filepath.Separator ∉ n.data ∧ n.data ≠ ['.'] ∧ n.data ≠ ['.', '.'] := by
  simp only [validName, decide_eq_true_eq] at h
  obtain ⟨h1, h2, h3, h4⟩ := h
  refine ⟨fun e => h1 (String.ext e), h2, fun e => h3 (String.ext e), fun e => h4 (String.ext e)⟩

theorem cleanStep_real (rooted : Bool) (out : List (List Char)) (e : List Char)
    (h1 : e ≠ []) (h2 : e ≠ ['.']) (h3 : e ≠ ['.', '.']) :
    filepath.cleanStep rooted out e = e :: out := by
  simp [filepath.cleanStep, h1, h2, h3]

/-- Cleaning a path that ends in a separator and a valid name keeps the name at the end,
alone or after a separator. -/
theorem Clean_snoc_valid (p : List Char) (n : String) (h : validName n = true) :
    ∃ X, (filepath.Clean (String.mk (p ++ filepath.Separator :: n.data))).data = X ++ n.data
      ∧ (X = [] ∨ ∃ Y, X = Y ++ [filepath.Separator]) := by
  obtain ⟨h1, h2, h3, h4⟩ := validName_data n h
  have hne : p ++ filepath.Separator :: n.data ≠ [] := by simp
  unfold filepath.Clean
  simp only [hne, if_false]
  rw [splitSep_append_sep, splitSep_of_not_mem n.data h2, List.foldl_append]
  simp only [List.foldl_cons, List.foldl_nil]
  rw [cleanStep_real _ _ _ h1 h3 h4, List.reverse_cons]
  obtain ⟨X, hX, hXs⟩ := intercalate_snoc [filepath.Separator] n.data
    (List.foldl (filepath.cleanStep (decide ((p ++ filepath.Separator :: n.data).head? = some filepath.Separator))) []
      (filepath.splitSep p)).reverse
  rw [hX]
  by_cases hr : (p ++ filepath.Separator :: n.data).head? = some filepath.Separator
  · simp only [hr, decide_True, if_true] at hX ⊢
    refine ⟨filepath.Separator :: X, by simp, ?_⟩
    rcases hXs with rfl | ⟨Y, rfl⟩
    · exact Or.inr ⟨[], rfl⟩
    · exact Or.inr ⟨filepath.Separator :: Y, rfl⟩
  · simp only [hr, decide_False] at hX ⊢
    refine ⟨X, ?_, hXs⟩
    have : X ++ n.data ≠ [] := by simp [h1]
    simp [this]

theorem Clean_valid (n : String) (h : validName n = true) : filepath.Clean n = n := by
  obtain ⟨h1, h2, h3, h4⟩ := validName_data n h
  have hhead : n.data.head? ≠ some filepath.Separator := by
    intro e
    cases hd : n.data with
    | nil => exact h1 hd
    | cons c cs =>
      rw [hd] at e h2
      simp at e
      exact h2 (e ▸ List.mem_cons_self c cs)
  unfold filepath.Clean
  simp only [h1, if_false, splitSep_of_not_mem n.data h2, List.foldl_cons, List.foldl_nil,
    cleanStep_real _ _ _ h1 h3 h4, hhead, decide_False]
  simp [List.intercalate, List.intersperse, h1]

/-- The path `walkDir` gives an entry ends in the entry's name, alone or after a separator. -/
theorem Join_valid (dir n : String) (h : validName n = true) :
    ∃ X, (filepath.Join [dir, n]).data = X ++ n.data
      ∧ (X = [] ∨ ∃ Y, X = Y ++ [filepath.Separator]) := by
  obtain ⟨h1, _, _, _⟩ := validName_data n h
  have hn : n ≠ "" := fun e => h1 (by rw [e])
  by_cases hd : dir = ""
  · refine ⟨[], ?_, Or.inl rfl⟩
    have : filepath.Join [dir, n] = filepath.Clean n := by
      simp [filepath.Join, hd, hn, List.intercalate, List.intersperse]
    rw [this, Clean_valid n h]; rfl
  · have : filepath.Join [dir, n]
        = filepath.Clean (String.mk (dir.data ++ filepath.Separator :: n.data)) := by
      simp [filepath.Join, hd, List.intercalate, List.intersperse]
    rw [this]
    exact Clean_snoc_valid dir.data n h

theorem suffix_after_sep (suf X n : List Char) (hsuf : filepath.Separator ∉ suf)
    (hX : X = [] ∨ ∃ Y, X = Y ++ [filepath.Separator]) :
    suf <:+ X ++ n ↔ suf <:+ n := by
  constructor
  · intro hs
    rcases hX with rfl | ⟨Y, rfl⟩
    · simpa using hs
    · by_cases hlen : suf.length ≤ n.length
      · exact List.suffix_of_suffix_length_le hs (List.suffix_append _ _) hlen
      · exfalso
        have h1 : (filepath.Separator :: n) <:+ (Y ++ [filepath.Separator]) ++ n := by
          rw [List.append_assoc]; exact List.suffix_append _ _
        have h2 : (filepath.Separator :: n) <:+ suf :=
          List.suffix_of_suffix_length_le h1 hs (by simp; omega)
        exact hsuf (h2.subset (List.mem_cons_self _ _))
  · intro hs
    exact hs.trans (List.suffix_append _ _)

/-- For a directory entry, the path ends in `.go` exactly when the name does. -/
theorem HasSuffix_Join_go (dir n : String) (h : validName n = true) :
    strings.HasSuffix (filepath.Join [dir, n]) ".go" = strings.HasSuffix n ".go" := by
  obtain ⟨X, hX, hXs⟩ := Join_valid dir n h
  have hsep : filepath.Separator ∉ (".go" : String).data := by decide
  have := suffix_after_sep (".go" : String).data X n.data hsep hXs
  rw [Bool.eq_iff_iff]
  simp only [strings.HasSuffix, List.isSuffixOf_iff_suffix, hX]
  exact this

/-! ## C2: the published sequence -/

theorem specSymbols_declared (Position : token.Pos → token.Position) (path : String)
    (Tok : token.Token) (spec : ast.Spec) :
    (specSymbols Position path Tok spec).map Symbol.declared
      = (match spec with
        | .TypeSpec Name => [(Name.Name, "Struct", path)]
        | .ValueSpec Names =>
          Names.map fun id => (id.Name, if Tok = token.Token.CONST then "Constant" else "Variable", path)
        | .ImportSpec _ => []) := by
  cases spec with
  | ImportSpec p => rfl
  | ValueSpec Names =>
    simp [specSymbols, List.map_map, Function.comp_def, nameSymbol, Symbol.declared]
  | TypeSpec Name => rfl

theorem declSymbols_declared (Position : token.Pos → token.Position) (path : String)
    (decl : ast.Decl) :
    (declSymbols Position path decl).map Symbol.declared = declaredBy path decl := by
  cases decl with
  | BadDecl a b => rfl
  | GenDecl gen =>
    simp only [declSymbols, declaredBy, List.map_flatMap]
    congr 1
    funext spec
    exact specSymbols_declared Position path gen.Tok spec
  | FuncDecl fn => simp [declSymbols, declaredBy, Symbol.declared]

theorem fileSymbols_declared (os : OS) (path : String) :
    (fileSymbols os path).map Symbol.declared
      = if strings.HasSuffix path ".go" then declaredIn os path else [] := by
  unfold fileSymbols declaredIn
  by_cases hgo : strings.HasSuffix path ".go" = true
  · simp only [hgo, if_true]
    cases os.ParseFile path with
    | none => rfl
    | some f =>
      simp only [List.map_flatMap]
      congr 1
      funext decl
      exact declSymbols_declared os.Position path decl
  · simp [hgo]

theorem declaredOf_append (os : OS) (l₁ l₂ : List (String × String)) :
    declaredOf os (l₁ ++ l₂) = declaredOf os l₁ ++ declaredOf os l₂ := by
  simp [declaredOf, List.filter_append, List.flatMap_append]

theorem entry_name_of_validNames (t : FsNode) (h : validNames t = true) :
    validName t.entry.Name = true := by
  cases t with
  | file n => simpa [validNames, FsNode.entry] using h
  | dir n e cs =>
    simp only [validNames, Bool.and_eq_true] at h
    simpa [FsNode.entry] using h.1

mutual
theorem treeSymbols_declared (os : OS) :
    ∀ (t : FsNode) (dir : String), validNames t = true →
      (treeSymbols os (filepath.Join [dir, t.entry.Name]) t).map Symbol.declared
        = declaredOf os (if t.entry.IsDir && skipsDir t.entry.Name then []
            else filesOf (filepath.Join [dir, t.entry.Name]) t)
  | .file n, dir, h => by
    have hn : validName n = true := by simpa [validNames] using h
    simp only [treeSymbols, FsNode.entry, Bool.false_and, filesOf, fileSymbols_declared,
      declaredOf, List.filter_cons, List.filter_nil, HasSuffix_Join_go dir n hn]
    by_cases hgo : strings.HasSuffix n ".go" = true <;> simp [hgo]
  | .dir n e cs, dir, h => by
    simp only [validNames, Bool.and_eq_true] at h
    simp only [treeSymbols, FsNode.entry, Bool.true_and, filesOf]
    by_cases hs : skipsDir n = true
    · simp [hs, declaredOf]
    · simp only [hs, if_false]
      exact entriesSymbols_declared os cs (filepath.Join [dir, n]) h.2
theorem entriesSymbols_declared (os : OS) :
    ∀ (cs : List FsNode) (dir : String), validNamesAll cs = true →
      (entriesSymbols os dir cs).map Symbol.declared = declaredOf os (filesBelow dir cs)
  | [], dir, _ => by
    simp [entriesSymbols, filesBelow, declaredOf]
  | d1 :: rest, dir, h => by
    simp only [validNamesAll, Bool.and_eq_true] at h
    rw [entriesSymbols, filesBelow, List.map_append, declaredOf_append,
      treeSymbols_declared os d1 dir h.1, entriesSymbols_declared os rest dir h.2]
end

/-- C2, as amended: when the root is a directory whose own name is not a pruned one,
the sequence `updateIndex` publishes (and `handleSymbols` returns) is, whatever was
published before, the concatenation in visit order, over the files below the root
whose name ends in `.go`, that lie in no pruned subdirectory and that parse, of the
file-scope declarations in declaration order, with the kinds the specification gives. -/
theorem C2_published_sequence (os : OS) (root : String) (st : State) (n : String)
    (readErr : Bool) (children : List FsNode)
    (hroot : os.Lstat root = some (.dir n readErr children))
    (hname : skipsDir n = false) (hvalid : validNamesAll children = true) :
    (handleSymbols (updateIndex os root st)).map Symbol.declared = specIndex os root children := by
  simp only [handleSymbols, updateIndex, hroot, indexTree_some, treeSymbols, hname, specIndex]
  exact entriesSymbols_declared os children root hvalid

/-- C2, witness: the workspace `/w` with a file that does not parse, a hidden directory
and `main.go`. -/
theorem C2_published_sequence_witness :
    (handleSymbols (updateIndex exampleOS "/w" exampleState)).map Symbol.declared
      = [("main", "Function", "/w/main.go")] :=
  C2_published_sequence exampleOS "/w" exampleState "w" false
    [.file "broken.go", .dir ".git" false [.file "hook.go"], .file "main.go"] rfl (by decide) (by decide)

/-- C2, counterexample: the root `/home/u/.proj` is itself a hidden directory; its file
`main.go` parses and lies in no pruned subdirectory below the root, yet nothing is published. -/
theorem C2_counterexample :
    hiddenRootOS.Lstat "/home/u/.proj" = some (.dir ".proj" false [.file "main.go"]) ∧
      handleSymbols (updateIndex hiddenRootOS "/home/u/.proj" exampleState) = [] ∧
      specIndex hiddenRootOS "/home/u/.proj" [.file "main.go"]
        = [("main", "Function", "/home/u/.proj/main.go")] := by
  refine ⟨rfl, ?_, ?_⟩ <;> decide

/-! ## C3: pruned directories -/

theorem path_of_mem_fileSymbols (os : OS) (path : String) (sym : Symbol)
    (h : sym ∈ fileSymbols os path) : sym.Path = path := by
  unfold fileSymbols at h
  split at h
  · split at h
    · simp at h
    · simp only [List.mem_flatMap] at h
      obtain ⟨decl, _, hd⟩ := h
      exact path_of_mem_declSymbols os.Position path decl sym hd
  · simp at h

mutual
theorem reaches_of_mem_treeSymbols (os : OS) :
    ∀ (t : FsNode) (path : String) (sym : Symbol), sym ∈ treeSymbols os path t →
      ∃ dirs, Reaches path t dirs sym.Path ∧ ∀ d ∈ dirs, skipsDir d = false
  | .file n, path, sym, h => by
    rw [treeSymbols] at h
    rw [path_of_mem_fileSymbols os path sym h]
    exact ⟨[], Reaches.file path n, by simp⟩
  | .dir n e cs, path, sym, h => by
    rw [treeSymbols] at h
    by_cases hs : skipsDir n = true
    · simp [hs] at h
    · simp only [hs, if_false] at h
      obtain ⟨d1, dirs, hmem, hreach, hdirs⟩ := reaches_of_mem_entriesSymbols os cs path sym h
      refine ⟨n :: dirs, Reaches.dir path n e cs d1 dirs sym.Path hmem hreach, ?_⟩
      intro d hd
      rcases List.mem_cons.1 hd with rfl | hd
      · simpa using hs
      · exact hdirs d hd
theorem reaches_of_mem_entriesSymbols (os : OS) :
    ∀ (cs : List FsNode) (path : String) (sym : Symbol), sym ∈ entriesSymbols os path cs →
      ∃ d1 dirs, d1 ∈ cs ∧ Reaches (filepath.Join [path, d1.entry.Name]) d1 dirs sym.Path
        ∧ ∀ d ∈ dirs, skipsDir d = false
  | [], path, sym, h => by
    simp [entriesSymbols] at h
  | d1 :: rest, path, sym, h => by
    rw [entriesSymbols, List.mem_append] at h
    rcases h with h | h
    · obtain ⟨dirs, hreach, hdirs⟩ := reaches_of_mem_treeSymbols os d1 _ sym h
      exact ⟨d1, dirs, List.mem_cons_self d1 rest, hreach, hdirs⟩
    · obtain ⟨d2, dirs, hmem, hreach, hdirs⟩ := reaches_of_mem_entriesSymbols os rest path sym h
      exact ⟨d2, dirs, List.mem_cons_of_mem d1 hmem, hreach, hdirs⟩
end

theorem hideSkipped_entry (t : FsNode) : (hideSkipped t).entry = t.entry := by
  cases t with
  | file n => rfl
  | dir n e cs =>
    rw [hideSkipped]
    by_cases hs : skipsDir n = true <;> simp [hs, FsNode.entry]

mutual
theorem treeSymbols_hideSkipped (os : OS) :
    ∀ (t : FsNode) (path : String), treeSymbols os path (hideSkipped t) = treeSymbols os path t
  | .file n, path => by rw [hideSkipped]
  | .dir n e cs, path => by
    rw [hideSkipped]
    by_cases hs : skipsDir n = true
    · simp [hs, treeSymbols]
    · have hs' : skipsDir n = false := by simpa using hs
      simp only [hs', Bool.false_eq_true, if_false, treeSymbols]
      exact entriesSymbols_hideSkipped os cs path
theorem entriesSymbols_hideSkipped (os : OS) :
    ∀ (cs : List FsNode) (path : String),
      entriesSymbols os path (hideSkippedAll cs) = entriesSymbols os path cs
  | [], path => by rw [hideSkippedAll]
  | d1 :: rest, path => by
    rw [hideSkippedAll, entriesSymbols, entriesSymbols, hideSkipped_entry,
      treeSymbols_hideSkipped os d1, entriesSymbols_hideSkipped os rest]
end

/-- C3, as amended: every symbol `updateIndex` publishes for the tree at `root` has the
path of a file reached from the root through directories at or below the root none of
which has a name that begins with `.` or is `node_modules` or `vendor`; and the
published sequence is the same for every tree that differs only inside such
directories: they are never descended into, whatever they hold.  The directories of
the root path above the root are not tested. -/
theorem C3_pruned_never_descended (os : OS) (root : String) (st : State) (t : FsNode)
    (hroot : os.Lstat root = some t) :
    (∀ sym ∈ handleSymbols (updateIndex os root st),
        ∃ dirs, Reaches root t dirs sym.Path ∧ ∀ d ∈ dirs, skipsDir d = false) ∧
      (∀ t' : FsNode, hideSkipped t' = hideSkipped t →
        indexTree os root (some t') = handleSymbols (updateIndex os root st)) := by
  simp only [handleSymbols, updateIndex, hroot, indexTree_some]
  refine ⟨fun sym h => reaches_of_mem_treeSymbols os t root sym h, fun t' h => ?_⟩
  rw [← treeSymbols_hideSkipped os t', h, treeSymbols_hideSkipped os t]

/-- C3, witness: in the workspace `/w` the parseable file `.git/hook.go` is not indexed,
and the index is the same when `.git` holds other files and directories. -/
theorem C3_pruned_never_descended_witness :
    (∀ sym ∈ handleSymbols (updateIndex exampleOS "/w" exampleState),
        ∃ dirs, Reaches "/w"
            (.dir "w" false [.file "broken.go", .dir ".git" false [.file "hook.go"], .file "main.go"])
            dirs sym.Path ∧ ∀ d ∈ dirs, skipsDir d = false) ∧
      indexTree exampleOS "/w"
          (some (.dir "w" false [.file "broken.go",
            .dir ".git" true [.file "main.go", .dir "objects" false [.file "pack.go"]],
            .file "main.go"]))
        = handleSymbols (updateIndex exampleOS "/w" exampleState) :=
  ⟨(C3_pruned_never_descended exampleOS "/w" exampleState
      (.dir "w" false [.file "broken.go", .dir ".git" false [.file "hook.go"], .file "main.go"]) rfl).1,
    (C3_pruned_never_descended exampleOS "/w" exampleState
      (.dir "w" false [.file "broken.go", .dir ".git" false [.file "hook.go"], .file "main.go"]) rfl).2
      (.dir "w" false [.file "broken.go",
        .dir ".git" true [.file "main.go", .dir "objects" false [.file "pack.go"]],
        .file "main.go"]) rfl⟩

/-- C3, counterexample: the root `/home/u/.proj/sub` lies below the hidden directory
`.proj`.  Its file `main.go` is indexed, and the published path
`/home/u/.proj/sub/main.go` passes through the directory `.proj`, whose name begins
with `.`. -/
theorem C3_counterexample :
    nestedRootOS.Lstat "/home/u/.proj/sub" = some (.dir "sub" false [.file "main.go"]) ∧
      (handleSymbols (updateIndex nestedRootOS "/home/u/.proj/sub" exampleState)).map
          Symbol.declared = [("main", "Function", "/home/u/.proj/sub/main.go")] ∧
      pathDirs "/home/u/.proj/sub/main.go" = ["", "home", "u", ".proj", "sub"] ∧
      skipsDir ".proj" = true ∧
      (∃ sym ∈ handleSymbols (updateIndex nestedRootOS "/home/u/.proj/sub" exampleState),
        ∃ d ∈ pathDirs sym.Path, skipsDir d = true) := by
  refine ⟨rfl, by decide, by decide, by decide, ?_⟩
  exact ⟨{ Name := "main", Kind := "Function", Path := "/home/u/.proj/sub/main.go",
           Line := 3, Character := 1 }, by decide, ".proj", by decide, by decide⟩

/-! ## C4: files that do not parse -/

theorem fileSymbols_of_parse_fails (os : OS) (path : String) (h : os.ParseFile path = none) :
    fileSymbols os path = [] := by
  unfold fileSymbols
  rw [h]
  simp

theorem removeFile_entry (target path : String) (t t' : FsNode)
    (h : removeFile target path t = some t') : t'.entry = t.entry := by
  cases t with
  | file n =>
    rw [removeFile] at h
    split at h
    · simp at h
    · simp only [Option.some.injEq] at h
      rw [← h]
  | dir n e cs =>
    rw [removeFile] at h
    simp only [Option.some.injEq] at h
    rw [← h]
    rfl

mutual
theorem treeSymbols_removeFile (os : OS) (target : String) (hfail : os.ParseFile target = none) :
    ∀ (t : FsNode) (path : String),
      (match removeFile target path t with
        | none => []
        | some t' => treeSymbols os path t') = treeSymbols os path t
  | .file n, path => by
    rw [removeFile]
    by_cases hp : path = target
    · simp only [hp, if_true, treeSymbols]
      exact (fileSymbols_of_parse_fails os target hfail).symm
    · simp [hp]
  | .dir n e cs, path => by
    rw [removeFile]
    simp only [treeSymbols]
    rw [entriesSymbols_removeFileAll os target hfail cs path]
theorem entriesSymbols_removeFileAll (os : OS) (target : String) (hfail : os.ParseFile target = none) :
    ∀ (cs : List FsNode) (dir : String),
      entriesSymbols os dir (removeFileAll target dir cs) = entriesSymbols os dir cs
  | [], dir => by rw [removeFileAll]
  | d1 :: rest, dir => by
    rw [removeFileAll, entriesSymbols]
    have h1 := treeSymbols_removeFile os target hfail d1 (filepath.Join [dir, d1.entry.Name])
    have h2 := entriesSymbols_removeFileAll os target hfail rest dir
    cases hr : removeFile target (filepath.Join [dir, d1.entry.Name]) d1 with
    | none =>
      rw [hr] at h1
      simp only [] at h1 ⊢
      rw [h2, ← h1, List.nil_append]
    | some d1' =>
      rw [hr] at h1
      simp only [] at h1 ⊢
      rw [entriesSymbols, removeFile_entry target _ d1 d1' hr, h1, h2]
end

theorem indexTree_without (os : OS) (target root : String) (tree : Option FsNode) :
    indexTree (os.without target) root tree = indexTree os root tree := rfl

/-- C4: when the file `target` does not parse, `updateIndex` publishes for the tree at
`root` exactly what it publishes for the same tree without that file: the file adds
nothing, the walk goes on, and the symbols of the files before and after it are the same. -/
theorem C4_parse_failure_ignored (os : OS) (target root : String) (st : State)
    (hfail : os.ParseFile target = none) :
    updateIndex (os.without target) root st = updateIndex os root st := by
  unfold updateIndex
  rw [indexTree_without]
  congr 1
  cases ht : os.Lstat root with
  | none => simp [OS.without, ht]
  | some t =>
    have h := treeSymbols_removeFile os target hfail t root
    have hb : ((some t).bind fun a => removeFile target root a) = removeFile target root t := rfl
    simp only [OS.without, ht, hb]
    cases hr : removeFile target root t with
    | none =>
      rw [hr] at h
      rw [indexTree_none, indexTree_some, ← h]
    | some t' =>
      rw [hr] at h
      rw [indexTree_some, indexTree_some, ← h]

/-- C4, witness: `/w/broken.go` does not parse; without it the tree at `/w` has the
entries `.git` and `main.go`, and the index is that of the full tree. -/
theorem C4_parse_failure_ignored_witness :
    exampleOS.ParseFile "/w/broken.go" = none ∧
      (exampleOS.without "/w/broken.go").Lstat "/w"
        = some (.dir "w" false [.dir ".git" false [.file "hook.go"], .file "main.go"]) ∧
      updateIndex (exampleOS.without "/w/broken.go") "/w" exampleState
        = updateIndex exampleOS "/w" exampleState :=
  ⟨rfl, rfl, C4_parse_failure_ignored exampleOS "/w/broken.go" "/w" exampleState rfl⟩

/-! ## C5, C6: the import resolver -/

theorem checkExtensionsFrom_hit (os : OS) (p : String) (pre : List String) (ext : String)
    (post : List String) (hpre : ∀ e ∈ pre, isFile os (p ++ e) = false)
    (hext : isFile os (p ++ ext) = true) :
    checkExtensionsFrom os p (pre ++ ext :: post) = p ++ ext := by
  induction pre with
  | nil =>
    simp only [List.nil_append, checkExtensionsFrom]
    unfold isFile at hext
    cases hs : os.Stat (p ++ ext) with
    | none => simp [hs] at hext
    | some info =>
      simp only [hs] at hext
      simp [hext]
  | cons e pre ih =>
    have he := hpre e (List.mem_cons_self e pre)
    have ih' := ih (fun e' h' => hpre e' (List.mem_cons_of_mem e h'))
    rw [List.cons_append, checkExtensionsFrom]
    simp only [ih']
    unfold isFile at he
    cases hs : os.Stat (p ++ e) with
    | none => rfl
    | some info =>
      simp only [hs] at he
      simp [he]

theorem checkExtensionsFrom_miss (os : OS) (p : String) (exts : List String)
    (h : ∀ e ∈ exts, isFile os (p ++ e) = false) : checkExtensionsFrom os p exts = "" := by
  induction exts with
  | nil => rfl
  | cons e exts ih =>
    have he := h e (List.mem_cons_self e exts)
    simp only [checkExtensionsFrom]
    rw [ih (fun e' h' => h e' (List.mem_cons_of_mem e h'))]
    unfold isFile at he
    cases hs : os.Stat (p ++ e) with
    | none => rfl
    | some info =>
      simp only [hs] at he
      simp [he]

theorem handleResolveFile_relative (os : OS) (st : State) :
    handleResolveFile os st "/a/b/c.go" "./d"
      = if checkExtensions os "/a/b/d" ≠ "" then .ok (checkExtensions os "/a/b/d") else .notFound := by
  have hdir : filepath.Dir "/a/b/c.go" = "/a/b" := by decide
  have hjoin : filepath.Join ["/a/b", "./d"] = "/a/b/d" := by decide
  have hpre : strings.HasPrefix "./d" "." = true := by decide
  have h1 : ("/a/b/c.go" : String) ≠ "" := by decide
  have h2 : ("./d" : String) ≠ "" := by decide
  simp only [handleResolveFile, resolved, h1, h2, hdir, hpre, hjoin, or_self, if_false, if_true]

/-- C5, as amended: resolving `./d` against the base `/a/b/c.go` probes `/a/b/d` with the
suffix list in order.  It answers `/a/b/d.go` when that is an existing non-directory
file and `/a/b/d` itself is not one; it answers `/a/b/d/index.go` when that is an
existing non-directory file and none of the seven candidates before it in the list
is one; it answers not found when none of the eleven candidates is one. -/
theorem C5_relative_resolution (os : OS) (st : State) :
    (isFile os "/a/b/d" = false → isFile os "/a/b/d.go" = true →
        handleResolveFile os st "/a/b/c.go" "./d" = .ok "/a/b/d.go") ∧
      ((∀ e ∈ extensions.take 7, isFile os ("/a/b/d" ++ e) = false) →
        isFile os "/a/b/d/index.go" = true →
        handleResolveFile os st "/a/b/c.go" "./d" = .ok "/a/b/d/index.go") ∧
      ((∀ e ∈ extensions, isFile os ("/a/b/d" ++ e) = false) →
        handleResolveFile os st "/a/b/c.go" "./d" = .notFound) := by
  rw [handleResolveFile_relative]
  refine ⟨fun h0 h1 => ?_, fun hpre h1 => ?_, fun h => ?_⟩
  · have : checkExtensions os "/a/b/d" = "/a/b/d" ++ ".go" :=
      checkExtensionsFrom_hit os "/a/b/d" [""] ".go" _ (by simpa using h0) h1
    rw [this]; decide
  · have : checkExtensions os "/a/b/d" = "/a/b/d" ++ "/index.go" :=
      checkExtensionsFrom_hit os "/a/b/d" (extensions.take 7) "/index.go" _ hpre h1
    rw [this]; decide
  · have : checkExtensions os "/a/b/d" = "" := checkExtensionsFrom_miss os "/a/b/d" extensions h
    rw [this]; decide

/-- C5, witness: the three cases on filesystem states that satisfy their conditions. -/
theorem C5_relative_resolution_witness :
    handleResolveFile goOnlyOS exampleState "/a/b/c.go" "./d" = .ok "/a/b/d.go" ∧
      handleResolveFile indexOnlyOS exampleState "/a/b/c.go" "./d" = .ok "/a/b/d/index.go" ∧
      handleResolveFile exampleOS exampleState "/a/b/c.go" "./d" = .notFound :=
  ⟨(C5_relative_resolution goOnlyOS exampleState).1 (by decide) (by decide),
    (C5_relative_resolution indexOnlyOS exampleState).2.1 (by decide) (by decide),
    (C5_relative_resolution exampleOS exampleState).2.2 (by decide)⟩

/-- C5, counterexample: with `/a/b/d` and `/a/b/d.go` both regular files the answer is
`/a/b/d`; with `/a/b/d.go` absent and both `/a/b/d.ts` and `/a/b/d/index.go` present
the answer is `/a/b/d.ts`; with neither `/a/b/d.go` nor `/a/b/d/index.go` present
and `/a/b/d.ts` present the answer is `/a/b/d.ts`, not "not found". -/
theorem C5_counterexample :
    (isFile plainAndGoOS "/a/b/d.go" = true ∧
        handleResolveFile plainAndGoOS exampleState "/a/b/c.go" "./d" = .ok "/a/b/d") ∧
      (scriptAndIndexOS.Stat "/a/b/d.go" = none ∧ isFile scriptAndIndexOS "/a/b/d/index.go" = true ∧
        handleResolveFile scriptAndIndexOS exampleState "/a/b/c.go" "./d" = .ok "/a/b/d.ts") ∧
      (scriptOnlyOS.Stat "/a/b/d.go" = none ∧ scriptOnlyOS.Stat "/a/b/d/index.go" = none ∧
        handleResolveFile scriptOnlyOS exampleState "/a/b/c.go" "./d" = .ok "/a/b/d.ts") := by
  refine ⟨⟨?_, ?_⟩, ⟨?_, ?_, ?_⟩, ⟨?_, ?_, ?_⟩⟩ <;> decide

theorem string_mk_data (s : String) : String.mk s.data = s := rfl

theorem alias_specifier (x : String) :
    ("@/" ++ x : String) ≠ "" ∧ strings.HasPrefix ("@/" ++ x) "." = false ∧
      strings.HasPrefix ("@/" ++ x) "@/" = true ∧ String.mk (("@/" ++ x : String).data.drop 2) = x := by
  have hd : ("@/" ++ x : String).data = '@' :: '/' :: x.data := rfl
  refine ⟨fun e => ?_, ?_, ?_, ?_⟩
  · have := congrArg String.data e
    rw [hd] at this
    simp at this
  · simp only [strings.HasPrefix, hd]
    simp [List.isPrefixOf]
  · simp only [strings.HasPrefix, hd]
    simp [List.isPrefixOf]
  · simp only [hd, List.drop_succ_cons, List.drop_zero]

/-- C6: for a specifier `@/x`, with a workspace root set, in every filesystem state and
for every base path, the resolution in `handleResolveFile` is `checkExtensions(root/x)`
when that finds a file and `checkExtensions(root/src/x)` otherwise: the root wins
over `src`, `src` is tried only after the whole list failed under the root, and the
base path plays no part.  The handler answers with that path, or with not found
when it is empty. -/
theorem C6_alias_resolution (os : OS) (st : State) (basePath x : String)
    (hroot : st.currentWorkDir ≠ "") :
    resolved os st basePath ("@/" ++ x)
        = (if checkExtensions os (filepath.Join [st.currentWorkDir, x]) ≠ "" then
            checkExtensions os (filepath.Join [st.currentWorkDir, x])
          else checkExtensions os (filepath.Join [st.currentWorkDir, "src", x])) ∧
      (basePath ≠ "" →
        handleResolveFile os st basePath ("@/" ++ x)
          = if resolved os st basePath ("@/" ++ x) ≠ "" then
              .ok (resolved os st basePath ("@/" ++ x))
            else .notFound) := by
  obtain ⟨h1, h2, h3, h4⟩ := alias_specifier x
  constructor
  · simp only [resolved, h2, h3, h4, hroot, if_false, if_true, ne_eq, not_false_eq_true,
      Bool.false_eq_true]
    by_cases hr : checkExtensions os (filepath.Join [st.currentWorkDir, x]) = ""
    · simp [hr]
    · simp [hr]
  · intro hbase
    simp only [handleResolveFile, hbase, h1, or_self, if_false]

/-- C6, witness: `lib/util.ts` exists under `/w` and under `/w/src`, the root wins;
`only.js` exists under `/w/src` alone. -/
theorem C6_alias_resolution_witness :
    resolved aliasOS exampleState "/elsewhere/x.ts" "@/lib/util" = "/w/lib/util.ts" ∧
      resolved aliasOS exampleState "" "@/only" = "/w/src/only.js" ∧
      handleResolveFile aliasOS exampleState "/elsewhere/x.ts" "@/only" = .ok "/w/src/only.js" :=
  ⟨(C6_alias_resolution aliasOS exampleState "/elsewhere/x.ts" "lib/util" (by decide)).1.trans
      (by decide),
    (C6_alias_resolution aliasOS exampleState "" "only" (by decide)).1.trans (by decide),
    ((C6_alias_resolution aliasOS exampleState "/elsewhere/x.ts" "only" (by decide)).2
      (by decide)).trans (by decide)⟩

/-! ## C7, C8: the toolchain locator -/

/-- C7: with an override that supplies a toolchain root (a non-empty `GOROOT`),
`getGoBin` returns `filepath.Join(root, "bin", "go")` in every filesystem state: no
existence check, no look at the working directory or the search path. -/
theorem C7_override_wins (os : OS) (env : List (String × String)) (goroot : String)
    (hsupplied : env.lookup "GOROOT" = some goroot) (hne : goroot ≠ "") :
    getGoBin os env = filepath.Join [goroot, "bin", "go"] := by
  simp [getGoBin, hsupplied, hne]

/-- C7, witness: the override `/opt/go` in a state where nothing exists, and in one
where a bundled toolchain and a search-path toolchain exist. -/
theorem C7_override_wins_witness :
    getGoBin exampleOS [("GOPATH", "/home/u/go"), ("GOROOT", "/opt/go")] = "/opt/go/bin/go" ∧
      getGoBin bundledOS [("GOPATH", "/home/u/go"), ("GOROOT", "/opt/go")] = "/opt/go/bin/go" :=
  ⟨(C7_override_wins exampleOS _ "/opt/go" (by decide) (by decide)).trans (by decide),
    (C7_override_wins bundledOS _ "/opt/go" (by decide) (by decide)).trans (by decide)⟩

theorem checkGoPath_eq (os : OS) (path : String) :
    checkGoPath os path
      = if isFile os (platformExe os path) then (platformExe os path, true) else ("", false) := by
  unfold checkGoPath isFile platformExe
  generalize (if os.GOOS = "windows" then path ++ ".exe" else path) = q
  dsimp only
  cases hs : os.Stat q with
  | none => simp
  | some info => cases hi : info.IsDir <;> simp [hi]

theorem findGoInEntries_eq (os : OS) (cwd : String) (entries : List DirEntry) :
    findGoInEntries os cwd entries
      = (((entries.filter fun s => s.IsDir).flatMap fun s =>
          [filepath.Join [cwd, s.Name, "go", "bin", "go"], filepath.Join [cwd, s.Name, "bin", "go"]]).map
          (platformExe os)).find? (isFile os) := by
  induction entries with
  | nil => rfl
  | cons entry rest ih =>
    rw [findGoInEntries, ih]
    by_cases hd : entry.IsDir = true
    · simp only [hd, if_true, checkGoPath_eq, List.filter_cons, List.flatMap_cons, List.map_append,
        List.map_cons, List.map_nil, List.cons_append, List.nil_append, List.find?_cons]
      by_cases h1 : isFile os (platformExe os (filepath.Join [cwd, entry.Name, "go", "bin", "go"])) = true
      · simp [h1]
      · by_cases h2 : isFile os (platformExe os (filepath.Join [cwd, entry.Name, "bin", "go"])) = true
        · simp [h1, h2]
        · simp [h1, h2]
    · simp [hd]

theorem findGoExecutable_eq (os : OS) : findGoExecutable os = locateSpec os := by
  unfold findGoExecutable locateSpec
  cases os.Getwd with
  | none => rfl
  | some cwd =>
    simp only [checkGoPath_eq, findGoInEntries_eq, candidates, List.map_cons, List.find?_cons]
    by_cases h1 : isFile os (platformExe os (filepath.Join [cwd, "go", "bin", "go"])) = true
    · simp [h1]
    · simp only [h1, Bool.false_eq_true, if_false]
      cases hf : List.find? (isFile os) (List.map (platformExe os)
          ((List.filter (fun s => s.IsDir) (os.ReadDir cwd)).flatMap fun s =>
            [filepath.Join [cwd, s.Name, "go", "bin", "go"], filepath.Join [cwd, s.Name, "bin", "go"]])) with
      | some path => simp
      | none =>
        cases os.LookPath "go" <;> simp

theorem dot_or_mk_ne_empty (res : List Char) :
    (if res = [] then "." else String.mk res) ≠ "" := by
  by_cases h : res = []
  · rw [if_pos h]; decide
  · rw [if_neg h]
    intro e
    exact h (congrArg String.data e)

theorem Clean_ne_empty (path : String) : filepath.Clean path ≠ "" := by
  unfold filepath.Clean
  by_cases h : path.data = []
  · rw [if_pos h]; decide
  · rw [if_neg h]
    exact dot_or_mk_ne_empty _

theorem Join_ne_empty (elem : List String) (h : ∃ e ∈ elem, e ≠ "") : filepath.Join elem ≠ "" := by
  unfold filepath.Join
  split
  · rename_i hd
    obtain ⟨e, he, hne⟩ := h
    have := List.dropWhile_eq_nil_iff.1 hd e he
    simp at this
    exact absurd this hne
  · exact Clean_ne_empty _

theorem platformExe_ne_empty (os : OS) (path : String) (h : path ≠ "") : platformExe os path ≠ "" := by
  unfold platformExe
  split
  · intro e
    have := congrArg String.data e
    have hd : (path ++ ".exe").data = path.data ++ (".exe" : String).data := rfl
    rw [hd] at this
    simp at this
  · exact h

theorem candidates_ne_empty (cwd : String) (entries : List DirEntry) :
    ∀ path ∈ candidates cwd entries, path ≠ "" := by
  intro path hp
  simp only [candidates, List.mem_cons, List.mem_flatMap, List.mem_filter] at hp
  rcases hp with rfl | ⟨s, _, hs⟩
  · exact Join_ne_empty _ ⟨"go", by simp, by decide⟩
  · simp only [List.mem_cons, List.mem_singleton, List.not_mem_nil, or_false] at hs
    rcases hs with rfl | rfl
    · exact Join_ne_empty _ ⟨"go", by simp, by decide⟩
    · exact Join_ne_empty _ ⟨"go", by simp, by decide⟩

/-- C8, as amended: in every filesystem state `findGoExecutable` returns, when the
working directory can be determined, the first existing non-directory file among
`<cwd>/go/bin/go`, then for each immediate subdirectory `s` of `cwd` in listing order
`<cwd>/s/go/bin/go` and `<cwd>/s/bin/go` (each with `.exe` appended on Windows), else
the result of the search-path lookup of `go` when that succeeds, else the bare name
`go`; when the working directory cannot be determined it returns the bare name `go`
without a lookup.  The function is total and, the lookup giving a non-empty path
when it succeeds, its result is never empty. -/
theorem C8_locate_without_override (os : OS) :
    findGoExecutable os = locateSpec os ∧
      ((∀ path, os.LookPath "go" = some path → path ≠ "") → findGoExecutable os ≠ "") := by
  refine ⟨findGoExecutable_eq os, fun hlook => ?_⟩
  rw [findGoExecutable_eq]
  unfold locateSpec
  cases os.Getwd with
  | none => show ("go" : String) ≠ ""; decide
  | some cwd =>
    simp only []
    cases hf : ((candidates cwd (os.ReadDir cwd)).map (platformExe os)).find? (isFile os) with
    | some path =>
      simp only []
      have hmem := List.mem_of_find?_eq_some hf
      obtain ⟨c, hc, rfl⟩ := List.mem_map.1 hmem
      exact platformExe_ne_empty os c (candidates_ne_empty cwd _ c hc)
    | none =>
      simp only []
      cases hl : os.LookPath "go" with
      | none => show ("go" : String) ≠ ""; decide
      | some path => exact hlook path hl

/-- C8, witness: a toolchain unpacked in `/srv/editor/sdk` is found before the search
path is asked; with nothing around and no `go` on the search path the bare name is returned. -/
theorem C8_locate_without_override_witness :
    findGoExecutable bundledOS = "/srv/editor/sdk/bin/go" ∧ findGoExecutable exampleOS = "go" ∧
      findGoExecutable bundledOS ≠ "" :=
  ⟨(C8_locate_without_override bundledOS).1.trans (by decide),
    (C8_locate_without_override exampleOS).1.trans (by decide),
    (C8_locate_without_override bundledOS).2 (by
      intro path h
      have : path = "/usr/bin/go" := by
        simp only [bundledOS] at h
        simpa using h.symm
      rw [this]; decide)⟩

/-- C8, counterexample: the working directory cannot be determined, so no candidate
exists, and the search-path lookup of `go` succeeds with `/usr/bin/go`; the function
returns the bare name `go`. -/
theorem C8_counterexample :
    noCwdOS.Getwd = none ∧ noCwdOS.LookPath "go" = some "/usr/bin/go" ∧
      getGoBin noCwdOS [] = "go" ∧ findGoExecutable noCwdOS = "go" ∧
      findGoExecutable noCwdOS ≠ "/usr/bin/go" := by
  refine ⟨rfl, rfl, ?_, ?_, ?_⟩ <;> decide

/-! ## C9, C10: the subprocess of `handleRun` and `handleCmd` -/

theorem handleRun_launched_path (os : OS) (fx : Effects) (st : State) (disk : Disk)
    (req : RunRequest) (hpath : req.Path ≠ "") (hwrite : fx.WriteFile = none) :
    (handleRun os fx st disk req).launched
      = some { Args := [getGoBin os req.Env, "run", req.Path],
               Dir := if st.currentWorkDir ≠ "" ∧ strings.HasPrefix req.Path st.currentWorkDir
                 then st.currentWorkDir else filepath.Dir req.Path,
               Env := applyEnv os.Environ req.Env } := by
  simp only [handleRun, hpath, hwrite, handleRunExec, Command, ne_eq, not_false_eq_true, if_true]
  by_cases h : st.currentWorkDir ≠ "" ∧ strings.HasPrefix req.Path st.currentWorkDir = true
  · simp [h]
  · simp only [ne_eq] at h
    simp [h]

theorem handleRun_launched_scratch (os : OS) (fx : Effects) (st : State) (disk : Disk)
    (req : RunRequest) (name : String) (hpath : req.Path = "")
    (htemp : fx.CreateTemp = .ok name) (hwrite : fx.TmpWrite = none) :
    (handleRun os fx st disk req).launched
      = some { Args := [getGoBin os req.Env, "run", name], Dir := "",
               Env := applyEnv os.Environ req.Env } := by
  simp [handleRun, hpath, htemp, hwrite, handleRunExec, Command]

theorem hasPrefix_of_liesUnder (root path : String) (h : liesUnder root path = true) :
    strings.HasPrefix path root = true := by
  unfold liesUnder at h
  split at h
  · exact h
  · simp only [strings.HasPrefix, List.isPrefixOf_iff_prefix] at h ⊢
    have hd : (root ++ "/").data = root.data ++ ("/" : String).data := rfl
    rw [hd] at h
    exact (List.prefix_append _ _).trans h

/-- C9, as amended: with a target path that is written successfully, the subprocess of
`handleRun` gets as working directory the workspace root when a root is set and the
target path lies inside it, and the target path's directory when no root is set or
the target path does not begin with the root; without a target path, the scratch
file created and written, `handleRun` sets no working directory, so the subprocess
runs in the server's own current directory. -/
theorem C9_working_directory (os : OS) (fx : Effects) (st : State) (disk : Disk) (req : RunRequest) :
    (req.Path ≠ "" → fx.WriteFile = none → st.currentWorkDir ≠ "" →
        liesUnder st.currentWorkDir req.Path = true →
        ((handleRun os fx st disk req).launched.map fun cmd => cmd.Dir) = some st.currentWorkDir) ∧
      (req.Path ≠ "" → fx.WriteFile = none →
        (st.currentWorkDir = "" ∨ strings.HasPrefix req.Path st.currentWorkDir = false) →
        ((handleRun os fx st disk req).launched.map fun cmd => cmd.Dir)
          = some (filepath.Dir req.Path)) ∧
      (∀ name, req.Path = "" → fx.CreateTemp = .ok name → fx.TmpWrite = none →
        ((handleRun os fx st disk req).launched.map fun cmd => cmd.Dir) = some "" ∧
        ((handleRun os fx st disk req).launched.map (workingDirectory os)) = some os.Getwd) := by
  refine ⟨fun hpath hwrite hroot hunder => ?_, fun hpath hwrite hnot => ?_,
    fun name hpath htemp hwrite => ?_⟩
  · rw [handleRun_launched_path os fx st disk req hpath hwrite]
    simp [hroot, hasPrefix_of_liesUnder _ _ hunder]
  · rw [handleRun_launched_path os fx st disk req hpath hwrite]
    rcases hnot with h | h <;> simp [h]
  · rw [handleRun_launched_scratch os fx st disk req name hpath htemp hwrite]
    simp [workingDirectory]

/-- C9, witness: a file of the workspace `/w` runs in `/w`, a file outside it in its own
directory, a scratch file in the server's current directory `/srv/editor`. -/
theorem C9_working_directory_witness :
    ((handleRun exampleOS okEffects exampleState emptyDisk workspaceRequest).launched.map
        fun cmd => cmd.Dir) = some "/w" ∧
      ((handleRun exampleOS okEffects exampleState emptyDisk outsideRequest).launched.map
        fun cmd => cmd.Dir) = some "/home/u/play" ∧
      ((handleRun exampleOS okEffects exampleState emptyDisk scratchRequest).launched.map
        (workingDirectory exampleOS)) = some (some "/srv/editor") :=
  ⟨(C9_working_directory exampleOS okEffects exampleState emptyDisk workspaceRequest).1
      (by decide) rfl (by decide) (by decide),
    ((C9_working_directory exampleOS okEffects exampleState emptyDisk outsideRequest).2.1
      (by decide) rfl (Or.inr (by decide))).trans (by decide),
    ((C9_working_directory exampleOS okEffects exampleState emptyDisk scratchRequest).2.2
      "/tmp/main_123.go" rfl rfl rfl).2⟩

/-- C9, counterexample: without a target path the scratch file is `/tmp/main_123.go`, in
the directory `/tmp`, and the subprocess runs in the server's current directory
`/srv/editor`; and the target `/w2/main.go`, which is not inside the workspace `/w`,
runs in `/w`, not in `/w2`. -/
theorem C9_counterexample :
    ((handleRun exampleOS okEffects exampleState emptyDisk scratchRequest).launched
        = some { Args := ["go", "run", "/tmp/main_123.go"], Dir := "",
                 Env := ["PATH=/usr/bin", "GOPATH=/home/u/go", "GOPATH=/opt/gopath"] } ∧
      filepath.Dir "/tmp/main_123.go" = "/tmp" ∧
      ((handleRun exampleOS okEffects exampleState emptyDisk scratchRequest).launched.map
        (workingDirectory exampleOS)) = some (some "/srv/editor")) ∧
      (liesUnder "/w" "/w2/main.go" = false ∧ filepath.Dir "/w2/main.go" = "/w2" ∧
        ((handleRun exampleOS okEffects exampleState emptyDisk siblingRequest).launched.map
          fun cmd => cmd.Dir) = some "/w") := by
  refine ⟨⟨?_, ?_, ?_⟩, ?_, ?_, ?_⟩ <;> decide

theorem flatMap_if_eq_filter_map (env : List (String × String)) :
    (env.flatMap fun kv => if kv.2 ≠ "" then [overrideEntry kv] else [])
      = (env.filter fun kv => kv.2 ≠ "").map overrideEntry := by
  induction env with
  | nil => rfl
  | cons kv env ih =>
    rw [List.flatMap_cons, ih]
    by_cases hv : kv.2 = "" <;> simp [List.filter_cons, hv]

theorem applyEnv_eq (cmdEnv : List String) (env : List (String × String)) :
    applyEnv cmdEnv env
      = cmdEnv ++ (env.filter fun kv => kv.2 ≠ "").map overrideEntry := by
  unfold applyEnv
  have hstep : (fun (cmdEnv : List String) (kv : String × String) =>
        if kv.2 ≠ "" then cmdEnv ++ [kv.1 ++ "=" ++ kv.2] else cmdEnv)
      = fun cmdEnv kv => cmdEnv ++ (if kv.2 ≠ "" then [overrideEntry kv] else []) := by
    funext acc kv
    by_cases hv : kv.2 = "" <;> simp [hv, overrideEntry]
  rw [hstep, foldl_append_eq, flatMap_if_eq_filter_map]

theorem overrideEntry_data (kv : String × String) :
    (overrideEntry kv).data = kv.1.data ++ '=' :: kv.2.data := by
  show (kv.1 ++ "=" ++ kv.2).data = _
  have h1 : (kv.1 ++ "=" ++ kv.2).data = (kv.1.data ++ ("=" : String).data) ++ kv.2.data := rfl
  rw [h1, List.append_assoc]
  rfl

theorem entryName_overrideEntry (kv : String × String) (h : '=' ∉ kv.1.data) :
    entryName (overrideEntry kv) = kv.1.data := by
  unfold entryName
  rw [overrideEntry_data, List.takeWhile_append_of_pos]
  · simp
  · intro a ha
    have : a ≠ '=' := fun e => h (e ▸ ha)
    simpa using this

theorem entryValue_overrideEntry (kv : String × String) (h : '=' ∉ kv.1.data) :
    entryValue (overrideEntry kv) = kv.2 := by
  unfold entryValue
  rw [overrideEntry_data, List.dropWhile_append_of_pos]
  · simp
  · intro a ha
    have : a ≠ '=' := fun e => h (e ▸ ha)
    simpa using this

theorem setsVar_overrideEntry (k : String) (kv : String × String) (h : '=' ∉ kv.1.data) :
    setsVar k (overrideEntry kv) = true ↔ kv.1 = k := by
  unfold setsVar
  rw [entryName_overrideEntry kv h, overrideEntry_data]
  simp only [List.mem_append, List.mem_cons, true_or, or_true, true_and, decide_eq_true_eq]
  exact ⟨fun e => String.ext e, fun e => e ▸ rfl⟩

theorem effective_append_of_set (E B : List String) (k v : String)
    (hin : ∃ e ∈ B, setsVar k e = true)
    (hall : ∀ e ∈ B, setsVar k e = true → entryValue e = v) :
    effective (E ++ B) k = some v := by
  unfold effective
  rw [List.reverse_append, List.find?_append]
  cases hf : List.find? (setsVar k) B.reverse with
  | none =>
    obtain ⟨e, he, hs⟩ := hin
    have := List.find?_eq_none.1 hf e (List.mem_reverse.2 he)
    exact absurd hs this
  | some e =>
    have hmem := List.mem_reverse.1 (List.mem_of_find?_eq_some hf)
    have hs := List.find?_some hf
    simp [hall e hmem hs]

theorem effective_append_of_not_set (E B : List String) (k : String)
    (hnone : ∀ e ∈ B, setsVar k e = false) :
    effective (E ++ B) k = effective E k := by
  unfold effective
  rw [List.reverse_append, List.find?_append]
  have : List.find? (setsVar k) B.reverse = none := by
    rw [List.find?_eq_none]
    intro e he
    simp [hnone e (List.mem_reverse.1 he)]
  rw [this]
  rfl

/-- The environment of the subprocess is the process environment overlaid with the
non-empty overrides. -/
theorem applyEnv_overlay (environ : List String) (env : List (String × String))
    (hvalid : validOverrides env) :
    (∀ k v, (k, v) ∈ env → v ≠ "" → effective (applyEnv environ env) k = some v) ∧
      (∀ k, (∀ v, (k, v) ∈ env → v = "") →
        effective (applyEnv environ env) k = effective environ k) ∧
      environ <+: applyEnv environ env := by
  obtain ⟨hnodup, hkeys⟩ := hvalid
  rw [applyEnv_eq]
  refine ⟨fun k v hmem hv => ?_, fun k hempty => ?_, List.prefix_append _ _⟩
  · apply effective_append_of_set
    · refine ⟨overrideEntry (k, v), List.mem_map.2 ⟨(k, v), ?_, rfl⟩, ?_⟩
      · exact List.mem_filter.2 ⟨hmem, by simpa using hv⟩
      · exact (setsVar_overrideEntry k (k, v) (hkeys (k, v) hmem)).2 rfl
    · intro e he hs
      obtain ⟨kv, hkv, rfl⟩ := List.mem_map.1 he
      have hkvmem := (List.mem_filter.1 hkv).1
      have hk : kv.1 = k := (setsVar_overrideEntry k kv (hkeys kv hkvmem)).1 hs
      have : kv = (k, v) := List.inj_on_of_nodup_map hnodup hkvmem hmem hk
      rw [entryValue_overrideEntry kv (hkeys kv hkvmem), this]
  · apply effective_append_of_not_set
    intro e he
    obtain ⟨kv, hkv, rfl⟩ := List.mem_map.1 he
    obtain ⟨hkvmem, hne⟩ := List.mem_filter.1 hkv
    cases hs : setsVar k (overrideEntry kv) with
    | false => rfl
    | true =>
      exfalso
      have hk : kv.1 = k := (setsVar_overrideEntry k kv (hkeys kv hkvmem)).1 hs
      have hpair : (k, kv.2) ∈ env := by
        rw [← hk]
        exact hkvmem
      have : kv.2 = "" := hempty kv.2 hpair
      simp [this] at hne

theorem handleRun_launched_env (os : OS) (fx : Effects) (st : State) (disk : Disk)
    (req : RunRequest) (cmd : Cmd) (h : (handleRun os fx st disk req).launched = some cmd) :
    cmd.Env = applyEnv os.Environ req.Env := by
  by_cases hpath : req.Path = ""
  · cases htemp : fx.CreateTemp with
    | error e => simp [handleRun, hpath, htemp] at h
    | ok name =>
      cases hwrite : fx.TmpWrite with
      | some e => simp [handleRun, hpath, htemp, hwrite] at h
      | none =>
        rw [handleRun_launched_scratch os fx st disk req name hpath htemp hwrite] at h
        simp only [Option.some.injEq] at h
        rw [← h]
  · cases hwrite : fx.WriteFile with
    | some e => simp [handleRun, hpath, hwrite] at h
    | none =>
      rw [handleRun_launched_path os fx st disk req hpath hwrite] at h
      simp only [Option.some.injEq] at h
      rw [← h]

theorem handleCmd_launched_env (os : OS) (fx : Effects) (disk : Disk) (req : CmdRequest)
    (out : RunOutcome) (cmd : Cmd) (h : handleCmd os fx disk req = some out)
    (hcmd : out.launched = some cmd) : cmd.Env = applyEnv os.Environ req.Env := by
  unfold handleCmd at h
  cases hf : strings.Fields req.Command with
  | nil => simp [hf] at h
  | cons name cmdArgs =>
    simp only [hf, Option.some.injEq] at h
    rw [← h] at hcmd
    simp only [Option.some.injEq] at hcmd
    rw [← hcmd]

/-- C10, as amended: when the keys of the override mapping are variable names (they
contain no `=`), the environment `handleRun` gives its subprocess, and likewise the
one `handleCmd` gives for the same override mapping, is the process environment
overlaid with the non-empty overrides: a key with a non-empty override value has
that value as its effective (last entry wins) value; a key whose override is empty,
and a variable the overrides do not mention, keeps the effective value of the
process environment; and the process environment's entries all stay. -/
theorem C10_environment_overlay (os : OS) (fx : Effects) (st : State) (disk : Disk)
    (req : RunRequest) (creq : CmdRequest) (cmd : Cmd) (hvalid : validOverrides req.Env)
    (hcmd : (handleRun os fx st disk req).launched = some cmd ∨
      (creq.Env = req.Env ∧ ∃ out, handleCmd os fx disk creq = some out ∧ out.launched = some cmd)) :
    (∀ k v, (k, v) ∈ req.Env → v ≠ "" → effective cmd.Env k = some v) ∧
      (∀ k, (∀ v, (k, v) ∈ req.Env → v = "") → effective cmd.Env k = effective os.Environ k) ∧
      os.Environ <+: cmd.Env := by
  have henv : cmd.Env = applyEnv os.Environ req.Env := by
    rcases hcmd with h | ⟨he, out, h, hl⟩
    · exact handleRun_launched_env os fx st disk req cmd h
    · rw [← he]
      exact handleCmd_launched_env os fx disk creq out cmd h hl
  rw [henv]
  exact applyEnv_overlay os.Environ req.Env hvalid

theorem workspaceRequest_validOverrides : validOverrides workspaceRequest.Env := by
  unfold validOverrides
  refine ⟨by decide, ?_⟩
  intro kv hkv
  simp only [workspaceRequest, List.mem_cons, List.mem_singleton, List.not_mem_nil, or_false] at hkv
  rcases hkv with rfl | rfl <;> decide

theorem handleCmd_example_launched :
    ∃ out, handleCmd exampleOS okEffects emptyDisk exampleCmdRequest = some out ∧
      out.launched = some exampleShellCmd :=
  ⟨_, rfl, by decide⟩

/-- C10, witness: with `GOPATH=/home/u/go` in the process environment, the override
`GOPATH=/opt/gopath` and an empty override for `GOPROXY`, the subprocess of `handleRun`
and the one of `handleCmd` see `GOPATH=/opt/gopath`, no `GOPROXY`, and `PATH` as before. -/
theorem C10_environment_overlay_witness :
    (effective exampleRunCmd.Env "GOPATH" = some "/opt/gopath" ∧
        effective exampleRunCmd.Env "GOPROXY" = none ∧
        effective exampleRunCmd.Env "PATH" = some "/usr/bin") ∧
      (effective exampleShellCmd.Env "GOPATH" = some "/opt/gopath" ∧
        effective exampleShellCmd.Env "GOPROXY" = none) :=
  have hrun := C10_environment_overlay exampleOS okEffects exampleState emptyDisk workspaceRequest
    exampleCmdRequest exampleRunCmd workspaceRequest_validOverrides (Or.inl (by decide))
  have hcmd := C10_environment_overlay exampleOS okEffects exampleState emptyDisk workspaceRequest
    exampleCmdRequest exampleShellCmd workspaceRequest_validOverrides
    (Or.inr ⟨rfl, handleCmd_example_launched⟩)
  have hproxy : ∀ v, ("GOPROXY", v) ∈ workspaceRequest.Env → v = "" := by
    intro v hv
    simp only [workspaceRequest, List.mem_cons, Prod.mk.injEq, List.mem_singleton,
      List.not_mem_nil, or_false] at hv
    rcases hv with ⟨_, rfl⟩ | ⟨h, _⟩
    · rfl
    · exact absurd h (by decide)
  have hpath : ∀ v, ("PATH", v) ∈ workspaceRequest.Env → v = "" := by
    intro v hv
    simp only [workspaceRequest, List.mem_cons, Prod.mk.injEq, List.mem_singleton,
      List.not_mem_nil, or_false] at hv
    rcases hv with ⟨h, _⟩ | ⟨h, _⟩
    · exact absurd h (by decide)
    · exact absurd h (by decide)
  ⟨⟨hrun.1 "GOPATH" "/opt/gopath" (by decide) (by decide),
      (hrun.2.1 "GOPROXY" hproxy).trans (by decide),
      (hrun.2.1 "PATH" hpath).trans (by decide)⟩,
    ⟨hcmd.1 "GOPATH" "/opt/gopath" (by decide) (by decide),
      (hcmd.2.1 "GOPROXY" hproxy).trans (by decide)⟩⟩

/-- C10, counterexample: the override mapping has the one key `A=B`, with value `c`, and
the process environment is `A=1`.  The subprocess gets `A=1`, `A=B=c`: the variable
`A`, which the overrides do not mention, has the effective value `B=c` instead of `1`,
and the key `A=B` has no effective value. -/
theorem C10_counterexample :
    ((handleRun oddKeyOS okEffects exampleState emptyDisk oddKeyRequest).launched.map
        fun cmd => cmd.Env) = some ["A=1", "A=B=c"] ∧
      (oddKeyRequest.Env.map Prod.fst = ["A=B"]) ∧
      effective oddKeyOS.Environ "A" = some "1" ∧
      effective ["A=1", "A=B=c"] "A" = some "B=c" ∧
      effective ["A=1", "A=B=c"] "A=B" = none := by
  refine ⟨?_, ?_, ?_, ?_, ?_⟩ <;> decide

/-! ## C11: the scratch file -/

theorem Remove_other (os : OS) (opened : List String) (disk : Disk) (name p : String)
    (h : p ≠ name) : Remove os opened disk name p = disk p := by
  unfold Remove Disk.remove
  split <;> simp [h]

theorem Remove_closed (os : OS) (disk : Disk) (name : String) :
    Remove os [] disk name name = none := by
  simp [Remove, Disk.remove]

theorem Remove_not_windows (os : OS) (opened : List String) (disk : Disk) (name : String)
    (h : os.GOOS ≠ "windows") : Remove os opened disk name name = none := by
  simp [Remove, Disk.remove, h]

theorem handleRun_scratch_write_failed (os : OS) (fx : Effects) (st : State) (disk : Disk)
    (req : RunRequest) (name e : String) (hpath : req.Path = "")
    (htemp : fx.CreateTemp = .ok name) (hwrite : fx.TmpWrite = some e) :
    (handleRun os fx st disk req).disk = Remove os [name] (disk.write name "") name := by
  simp [handleRun, hpath, htemp, hwrite]

theorem handleRun_scratch_ran (os : OS) (fx : Effects) (st : State) (disk : Disk)
    (req : RunRequest) (name : String) (hpath : req.Path = "")
    (htemp : fx.CreateTemp = .ok name) (hwrite : fx.TmpWrite = none) :
    (handleRun os fx st disk req).disk
      = Remove os []
          (fx.CombinedOutput
            { Args := [getGoBin os req.Env, "run", name], Dir := "",
              Env := applyEnv os.Environ req.Env }
            ((disk.write name "").write name req.Code)).disk name := by
  simp [handleRun, hpath, htemp, hwrite, handleRunExec, Command]

/-- The scratch file is gone when `handleRun` returns, whatever the subprocess did
(failed to start, exited with an error, succeeded), and also after a failed write of
the source when the platform is not Windows; no other file is touched by the handler. -/
theorem handleRun_scratch_removed (os : OS) (fx : Effects) (st : State) (disk : Disk)
    (req : RunRequest) (name : String) (hpath : req.Path = "")
    (htemp : fx.CreateTemp = .ok name) :
    (fx.TmpWrite = none → (handleRun os fx st disk req).disk name = none) ∧
      (os.GOOS ≠ "windows" → (handleRun os fx st disk req).disk name = none) ∧
      (∀ p, p ≠ name → fx.TmpWrite ≠ none → (handleRun os fx st disk req).disk p = disk p) ∧
      (∀ p, p ≠ name → fx.TmpWrite = none →
        (handleRun os fx st disk req).disk p
          = (fx.CombinedOutput
              { Args := [getGoBin os req.Env, "run", name], Dir := "",
                Env := applyEnv os.Environ req.Env }
              ((disk.write name "").write name req.Code)).disk p) := by
  refine ⟨fun hw => ?_, fun hos => ?_, fun p hp hw => ?_, fun p hp hw => ?_⟩
  · rw [handleRun_scratch_ran os fx st disk req name hpath htemp hw, Remove_closed]
  · cases hw : fx.TmpWrite with
    | none => rw [handleRun_scratch_ran os fx st disk req name hpath htemp hw, Remove_closed]
    | some e =>
      rw [handleRun_scratch_write_failed os fx st disk req name e hpath htemp hw,
        Remove_not_windows os _ _ _ hos]
  · cases hw' : fx.TmpWrite with
    | none => exact absurd hw' hw
    | some e =>
      rw [handleRun_scratch_write_failed os fx st disk req name e hpath htemp hw',
        Remove_other os _ _ _ _ hp]
      simp [Disk.write, hp]
  · rw [handleRun_scratch_ran os fx st disk req name hpath htemp hw, Remove_other os _ _ _ _ hp]

/-- C11, the failing input: on Windows, a run request without target path whose scratch
file `C:\Temp\main_123.go` is created and cannot be written.  `handleRun` answers
`Failed to write code`, starts no subprocess, and the scratch file still exists when
it returns: `cleanup` runs while `tmpFile` is open.  The same request leaves no scratch
file when the write succeeds and the subprocess exits with status 1, and none on
Linux when the write fails; the other file on the disk stays in every case. -/
theorem C11_scratch_file_left_on_failed_write :
    ((handleRun windowsOS writeFailEffects exampleState notesDisk scratchRequest).response
        = { Output := "", Error := "Failed to write code: There is not enough space on the disk." } ∧
      (handleRun windowsOS writeFailEffects exampleState notesDisk scratchRequest).launched = none ∧
      (handleRun windowsOS writeFailEffects exampleState notesDisk scratchRequest).disk
        "C:\\Temp\\main_123.go" = some "") ∧
      ((handleRun windowsOS exitOneEffects exampleState notesDisk scratchRequest).response.Error
        = "exit status 1" ∧
      (handleRun windowsOS exitOneEffects exampleState notesDisk scratchRequest).disk
        "C:\\Temp\\main_123.go" = none) ∧
      (handleRun exampleOS writeFailEffects exampleState notesDisk scratchRequest).disk
        "C:\\Temp\\main_123.go" = none ∧
      (handleRun windowsOS writeFailEffects exampleState notesDisk scratchRequest).disk
        "C:\\Temp\\notes.txt" = some "keep" ∧
      (handleRun windowsOS exitOneEffects exampleState notesDisk scratchRequest).disk
        "C:\\Temp\\notes.txt" = some "keep" := by
  refine ⟨⟨?_, ?_, ?_⟩, ⟨?_, ?_⟩, ?_, ?_, ?_⟩ <;> decide

end GoEditor
